import Mathlib

/-!
Shallow embedding of `hydro/delta.py` (SCD merge engine, bootstrap engine,
deduplication engine, metadata inspector) over list-of-row tables, together
with proofs of the specification's claims about it.

A Delta table snapshot is modelled as a `List` of rows (a DataFrame is an
unordered multiset of rows; we use lists and treat them up to the operations
the code performs).  Timestamps and key projections are concrete orderable
values; the multi-column `keys` parameter of the Python code is modelled by a
single key projection per row for the SCD engines (no claim depends on
multi-column key subtleties there), while the deduplication engine keeps
column-index lists since its tie-breaking order is genuinely lexicographic
over a column list.
-/

/-- A row of an SCD2-style table: key projection, `effective_ts` column,
`end_ts` column (nullable), and the remaining payload columns. -/
structure SRow where
  key : Nat
  eff : Nat
  endTs : Option Nat
  val : Int
deriving DecidableEq

/-- An incoming-batch row for the SCD engines: same schema minus the
`end_ts` column (the incoming batch does not carry it; `unionByName` with
`allowMissingColumns=True` nulls it, and type-1 tables never have it). -/
structure InRow where
  key : Nat
  eff : Nat
  val : Int
deriving DecidableEq

/-- Null-extension of an incoming row to the SCD2 schema, as performed by
`unionByName(..., allowMissingColumns=True)` (missing `end_ts` becomes null)
and by `whenNotMatchedInsertAll` for a type-1 insert. -/
def InRow.toSRow (r : InRow) : SRow := ⟨r.key, r.eff, none, r.val⟩

/-- Ordering of rows by the `effective_ts` column (ascending), the order used
by `Window.partitionBy(keys).orderBy(effective_ts)`. -/
def effLe (a b : SRow) : Prop := a.eff ≤ b.eff

instance : DecidableRel effLe := fun a b => inferInstanceAs (Decidable (a.eff ≤ b.eff))

instance : IsTotal SRow effLe := ⟨fun a b => Nat.le_total a.eff b.eff⟩

instance : IsTrans SRow effLe := ⟨fun _ _ _ h1 h2 => Nat.le_trans h1 h2⟩

/-- Strict version of `effLe`, used to identify the unique sorted order of a
partition whose `effective_ts` values are pairwise distinct. -/
def effLt (a b : SRow) : Prop := a.eff < b.eff

instance : IsTrans SRow effLt := ⟨fun _ _ _ h1 h2 => Nat.lt_trans h1 h2⟩

instance : IsAntisymm SRow effLt := ⟨fun _ _ h1 h2 => absurd h2 (Nat.lt_asymm h1)⟩

/-- Sorting a partition by `effective_ts` ascending (the window order of
`Window.partitionBy(keys).orderBy(effective_ts)`). -/
def sortByEff (l : List SRow) : List SRow := l.insertionSort effLe

/-- The rows of one window partition: the rows whose key projection is `k`
(`Window.partitionBy(keys)`). -/
def partitionOf (l : List SRow) (k : Nat) : List SRow := l.filter (fun r => r.key == k)

/-- The distinct key projections occurring in a row list. -/
def keysOf (l : List SRow) : List Nat := (l.map (·.key)).dedup

/-- One partition's pass of `F.lead(effective_ts).over(window)` written into
the `end_ts` column: each row's `end_ts` becomes the `effective_ts` of the
next row of the partition (null for the last row). -/
def applyLead : List SRow → List SRow
  | [] => []
  | [r] => [{ r with endTs := none }]
  | r :: s :: rest => { r with endTs := some s.eff } :: applyLead (s :: rest)

/-- The full windowed-lead computation
`withColumn(end_ts, F.lead(effective_ts).over(Window.partitionBy(keys).orderBy(effective_ts)))`:
every partition is sorted by `effective_ts` and re-linked by `applyLead`.
The result is the same multiset of rows the Spark computation produces. -/
def windowLead (l : List SRow) : List SRow :=
  (keysOf l).foldr (fun k acc => applyLead (sortByEff (partitionOf l k)) ++ acc) []

/-- The merge predicate of `_scd2`: `source.{c} = target.{c}` for every
`c ∈ keys + [effective_ts]`. -/
def matchKeyEff (t s : SRow) : Bool := s.key == t.key && s.eff == t.eff

/-- The effect of `whenMatchedUpdateAll` on one target row of `_scd2`'s
merge: a target row matched by a source row is replaced by it (every source
column is written, and source and target schemas coincide); an unmatched
target row is kept. -/
def scd2Upd (payload : List SRow) (t : SRow) : SRow :=
  match payload.find? (fun s => matchKeyEff t s) with
  | some s => s
  | none => t

/-- The Delta merge issued by `_scd2`:
`whenMatchedUpdateAll().whenNotMatchedInsertAll()` keyed on
`keys + [effective_ts]`.  Every matched target row is replaced by its matching
source row; every source row matching no target row is inserted. -/
def mergeUpsert (target payload : List SRow) : List SRow :=
  target.map (scd2Upd payload)
  ++ payload.filter (fun s => !(target.any (fun t => matchKeyEff t s)))

/-- `updated_rows` of `_scd2`: the current snapshot semi-joined with the
incoming batch on `keys`, restricted to currently-open rows
(`end_ts is null`). -/
def updatedRows (tbl : List SRow) (src : List InRow) : List SRow :=
  (tbl.filter (fun t => src.any (fun s => s.key == t.key))).filter
    (fun t => t.endTs == none)

/-- `final_payload` of `_scd2`: open candidate rows unioned with the
null-extended incoming batch, then re-linked by the windowed lead. -/
def scd2Payload (tbl : List SRow) (src : List InRow) : List SRow :=
  windowLead (updatedRows tbl src ++ src.map InRow.toSRow)

/-- The table contents after the `_scd2` merge executes. -/
def scd2Table (tbl : List SRow) (src : List InRow) : List SRow :=
  mergeUpsert tbl (scd2Payload tbl src)

/-- Descending ordering of incoming rows by `effective_ts`, the window order
of `_scd1` (`orderBy(F.col(effective_ts).desc())`). -/
def effGeIn (a b : InRow) : Prop := b.eff ≤ a.eff

instance : DecidableRel effGeIn := fun a b => inferInstanceAs (Decidable (b.eff ≤ a.eff))

instance : IsTotal InRow effGeIn := ⟨fun a b => (Nat.le_total a.eff b.eff).symm⟩

instance : IsTrans InRow effGeIn := ⟨fun _ _ _ h1 h2 => Nat.le_trans h2 h1⟩

/-- The rows of one `_scd1` window partition of the incoming batch. -/
def partitionIn (l : List InRow) (k : Nat) : List InRow := l.filter (fun r => r.key == k)

/-- The distinct key projections occurring in an incoming batch. -/
def keysOfIn (l : List InRow) : List Nat := (l.map (·.key)).dedup

/-- `final_payload` of `_scd1`: per key, rank the incoming rows by descending
`effective_ts` (`row_number` over the window) and keep only rank 1. -/
def rank1 (src : List InRow) : List InRow :=
  (keysOfIn src).foldr
    (fun k acc => ((partitionIn src k).insertionSort effGeIn).take 1 ++ acc) []

/-- The effect of `whenMatchedUpdateAll` on one target row of `_scd1`'s
merge keyed on `keys`: an update writes every source column (`key`, `eff`,
`val`) over the target row, leaving target-only columns in place (type-1
tables are modelled in the common `SRow` schema so that one dispatcher
serves both modes, as in the Python code). -/
def scd1Upd (payload : List InRow) (t : SRow) : SRow :=
  match payload.find? (fun s => s.key == t.key) with
  | some s => { key := s.key, eff := s.eff, endTs := t.endTs, val := s.val }
  | none => t

/-- The Delta merge issued by `_scd1` keyed on `keys`: every matched target
row is overwritten by its matching source row's columns, every unmatched
source row is inserted (with a null `end_ts` in the common schema). -/
def mergeUpsert1 (target : List SRow) (payload : List InRow) : List SRow :=
  target.map (scd1Upd payload)
  ++ (payload.filter (fun s => !(target.any (fun t => t.key == s.key)))).map InRow.toSRow

/-- The table contents after the `_scd1` merge executes. -/
def scd1Table (tbl : List SRow) (src : List InRow) : List SRow :=
  mergeUpsert1 tbl (rank1 src)

/-- The error taxonomy of the engines: `ValueError` on bad parameters
(`ConfigurationError` in the specification) and the store's concurrent-write
conflict (`ConflictError`). -/
inductive HydroError where
  | configError
  | conflictError
deriving DecidableEq

/-- A call made by an engine to the table store, in order. -/
inductive StoreCall where
  | readSnapshot
  | mergeAttempt
deriving DecidableEq

instance {ε α : Type} [DecidableEq ε] [DecidableEq α] : DecidableEq (Except ε α) := fun x y =>
  match x, y with
  | .error a, .error b =>
    decidable_of_iff (a = b) ⟨fun h => by rw [h], fun h => by injection h⟩
  | .error _, .ok _ => isFalse fun h => Except.noConfusion h
  | .ok _, .error _ => isFalse fun h => Except.noConfusion h
  | .ok a, .ok b =>
    decidable_of_iff (a = b) ⟨fun h => by rw [h], fun h => by injection h⟩

/-- The outcome of one engine invocation: the resulting table (or error) and
the sequence of store calls that were issued. -/
structure EngineRun where
  result : Except HydroError (List SRow)
  calls : List StoreCall
deriving DecidableEq

/-- Python truthiness of the optional `end_ts : str = None` parameter:
`if not end_ts` treats both `None` and the empty string as not provided. -/
def truthyS : Option String → Bool
  | none => false
  | some s => s ≠ ""

/-- `scd(delta_table, source, keys, effective_ts, end_ts, scd_type)`:
dispatches on `scd_type`, raising `ValueError` for a type-2 call without a
(truthy) `end_ts` and for any `scd_type` outside `{1, 2}`, in both cases
before any store call.  `conflicts` is the store double's schedule: the
outcome of each successive merge attempt (`true` = the store reports a
conflict; an exhausted schedule means no conflict).  `_scd2` reads the
snapshot (`toDF`) and issues one merge; `_scd1` issues one merge. -/
def scdRun (tbl : List SRow) (src : List InRow) (endTs : Option String)
    (scdType : Nat) (conflicts : List Bool) : EngineRun :=
  if scdType = 2 then
    if truthyS endTs = false then ⟨.error .configError, []⟩
    else if conflicts.headD false then
      ⟨.error .conflictError, [.readSnapshot, .mergeAttempt]⟩
    else ⟨.ok (scd2Table tbl src), [.readSnapshot, .mergeAttempt]⟩
  else if scdType = 1 then
    if conflicts.headD false then ⟨.error .conflictError, [.mergeAttempt]⟩
    else ⟨.ok (scd1Table tbl src), [.mergeAttempt]⟩
  else ⟨.error .configError, []⟩

/-- Which write path `bootstrap_scd2` used to register the first version. -/
inductive WriteBranch where
  | byName (tableIdentifier : String)
  | byPath (path : String)
deriving DecidableEq

/-- The rows `bootstrap_scd2` writes: the source dataset with `end_ts`
computed by `F.lead(effective_ts).over(Window.partitionBy(keys).orderBy(effective_ts))`. -/
def bootstrapPayload (src : List InRow) : List SRow :=
  windowLead (src.map InRow.toSRow)

/-- `bootstrap_scd2(source_df, keys, effective_ts, end_ts, ..., path,
table_identifier)`: raises `ValueError` when neither `path` nor
`table_identifier` is (truthy-)supplied; otherwise computes the windowed
payload and writes it once — via `saveAsTable`/`forName` when a table
identifier is supplied (the `if table_identifier:` branch), else via
`save(path)`/`forPath` (the `elif path:` branch). -/
def bootstrapScd2 (src : List InRow) (path tableIdentifier : Option String) :
    Except HydroError (WriteBranch × List SRow) :=
  if truthyS path = false ∧ truthyS tableIdentifier = false then .error .configError
  else if truthyS tableIdentifier then
    .ok (.byName (tableIdentifier.getD ""), bootstrapPayload src)
  else .ok (.byPath (path.getD ""), bootstrapPayload src)

/-- A row of the deduplication engine's table: a tuple of column values,
indexed by column position (the engine's `keys` and `tiebreaking_columns`
are lists of column positions). -/
def proj (cols : List Nat) (r : List Int) : List Int := cols.map (fun i => r.getD i 0)

/-- The number of rows of `tbl` sharing the key projection `κ`
(`F.count('*').over(Window.partitionBy(keys))` seen from one row). -/
def countKey (tbl : List (List Int)) (keys : List Nat) (κ : List Int) : Nat :=
  (tbl.filter (fun r => proj keys r == κ)).length

/-- `dupes` of `deduplicate`: the rows whose key occurs more than once. -/
def dupeRows (tbl : List (List Int)) (keys : List Nat) : List (List Int) :=
  tbl.filter (fun r => 1 < countKey tbl keys (proj keys r))

/-- `dupes.select(keys).distinct()`: the distinct duplicated key values. -/
def dupeKeySet (tbl : List (List Int)) (keys : List Nat) : List (List Int) :=
  ((dupeRows tbl keys).map (proj keys)).dedup

/-- Descending lexicographic comparison of two equal-length tie-break
projections, earlier columns dominating: `a` ranks at or before `b` under
`orderBy([col.desc() for col in tiebreaking_columns])`. -/
def lexGeB : List Int → List Int → Bool
  | [], _ => true
  | _ :: _, [] => true
  | x :: xs, y :: ys => if y < x then true else if x < y then false else lexGeB xs ys

/-- Row ordering by tie-break projection, descending. -/
def rowGe (tiebreak : List Nat) (a b : List Int) : Prop :=
  lexGeB (proj tiebreak a) (proj tiebreak b) = true

instance : DecidableRel (rowGe tiebreak) := fun a b =>
  inferInstanceAs (Decidable (lexGeB (proj tiebreak a) (proj tiebreak b) = true))

/-- The tie-break branch of `deduplicate`: per duplicated key, rank the
duplicate rows by the tie-breaking columns descending (`row_number` over the
window) and keep only rank 1. -/
def survivorsTB (tbl : List (List Int)) (keys tiebreak : List Nat) : List (List Int) :=
  (dupeKeySet tbl keys).foldr
    (fun κ acc =>
      (((dupeRows tbl keys).filter (fun r => proj keys r == κ)).insertionSort
        (rowGe tiebreak)).take 1 ++ acc)
    []

/-- Worker for `drop_duplicates(keys)`: keep the first row of each key. -/
def dropDupsGo (keys : List Nat) (seen : List (List Int)) :
    List (List Int) → List (List Int)
  | [] => []
  | r :: rest =>
    if proj keys r ∈ seen then dropDupsGo keys seen rest
    else r :: dropDupsGo keys (proj keys r :: seen) rest

/-- The no-tie-break branch of `deduplicate`: `dupes.drop_duplicates(keys)`,
keeping one row per duplicated key. -/
def dropDupsByKey (keys : List Nat) (l : List (List Int)) : List (List Int) :=
  dropDupsGo keys [] l

/-- A store call made by the deduplication engine, in order: stage the
survivors at the temporary path, delete every row matching a duplicated key
(`whenMatchedDelete` against the distinct duplicate keys), then append the
staged survivors back into the target location. -/
inductive DedupCall where
  | writeTemp (tempPath : String) (rows : List (List Int))
  | mergeDelete (dupKeys : List (List Int))
  | appendTarget (rows : List (List Int))
deriving DecidableEq

/-- The outcome of one `deduplicate` invocation: the final table contents,
the staged survivor rows, and the store calls issued. -/
structure DedupRun where
  result : List (List Int)
  staged : List (List Int)
  calls : List DedupCall
deriving DecidableEq

/-- `deduplicate(delta_table, temp_path, keys, tiebreaking_columns)`:
identifies the duplicated keys, stages one survivor per duplicated key
(tie-break ranking when `tiebreaking_columns` is non-empty, else
`drop_duplicates`), deletes every row carrying a duplicated key, and appends
the staged survivors. -/
def deduplicate (tbl : List (List Int)) (tempPath : String)
    (keys tiebreak : List Nat) : DedupRun :=
  let staged :=
    if tiebreak.isEmpty then dropDupsByKey keys (dupeRows tbl keys)
    else survivorsTB tbl keys tiebreak
  let afterDelete := tbl.filter (fun r => !((dupeKeySet tbl keys).contains (proj keys r)))
  { result := afterDelete ++ staged
    staged := staged
    calls := [.writeTemp tempPath staged, .mergeDelete (dupeKeySet tbl keys),
              .appendTarget staged] }

/-- A scalar field of the `detail` metadata record: the numeric value read
from the snapshot, or the human-formatted string written over it. -/
inductive MetaVal where
  | num (n : Nat)
  | str (s : String)
deriving DecidableEq

/-- The `DetailOutput` record (the fields the claims are about: `num_files`
and `size`, plus the location carried for further calls; the remaining
descriptive fields are copied around unchanged by the code). -/
structure DetailOutput where
  num_files : MetaVal
  size : MetaVal
  location : String
deriving DecidableEq

/-- Modelled from the spec: `_humanize_number` is imported from
`hydro/__init__.py`, which is not under `src/`; the spec only says it
renders a count as a human-formatted string.  The exact rendering is
immaterial to every claim; what matters is that it is a string. -/
def humanizeNumber : MetaVal → String
  | .num n => toString n
  | .str s => s

/-- Modelled from the spec: `_humanize_bytes` is imported from
`hydro/__init__.py`, which is not under `src/`; the spec only says it
renders a byte size as a human-formatted string. -/
def humanizeBytes : MetaVal → String
  | .num n => toString n ++ " bytes"
  | .str s => s

/-- `DetailOutput.humanize`: writes the human-formatted strings over the
`num_files` and `size` fields of the record itself. -/
def DetailOutput.humanize (d : DetailOutput) : DetailOutput :=
  { d with num_files := .str (humanizeNumber d.num_files),
           size := .str (humanizeBytes d.size) }

/-- `detail(delta_table)`: builds the `DetailOutput` record from the
snapshot's metadata (here: the record is the input), humanizes it in place,
and returns a deep copy of its fields, which for immutable values is the
record itself. -/
def detail (d : DetailOutput) : DetailOutput := d.humanize

/-- Consecutive-links check over a partition sorted by `effective_ts`:
`end_ts[i] == effective_ts[i+1]` for every pair of consecutive records. -/
def linkedB : List SRow → Bool
  | [] => true
  | [_] => true
  | r :: s :: rest => (r.endTs == some s.eff) && linkedB (s :: rest)

/-- The number of open (`end_ts is null`) records in a row list. -/
def openCount (l : List SRow) : Nat := (l.filter (fun r => r.endTs == none)).length

/-- Invariant I1 for one key's records, sorted by `effective_ts`: the
intervals tile (`end_ts[i] == effective_ts[i+1]` consecutively) and exactly
one record is open. -/
def tilesB (l : List SRow) : Bool := linkedB l && (openCount l == 1)

/-- Invariant I1 of the specification: for every key present in the table,
the key's records sorted by `effective_ts` tile without gaps or overlaps and
exactly one of them has `end_ts = null`. -/
def I1 (tbl : List SRow) : Prop :=
  ∀ k ∈ keysOf tbl, tilesB (sortByEff (partitionOf tbl k)) = true

instance : DecidablePred I1 := fun tbl =>
  inferInstanceAs (Decidable (∀ k ∈ keysOf tbl, tilesB (sortByEff (partitionOf tbl k)) = true))

/-- Strictly-increasing `effective_ts` check over a sorted partition:
together with `tilesB` this is the well-formedness invariant an SCD2 table
maintained through the merge's `keys + [effective_ts]` merge key satisfies
(no two records of one key share an `effective_ts`). -/
def strictIncB : List SRow → Bool
  | [] => true
  | [_] => true
  | r :: s :: rest => (decide (r.eff < s.eff)) && strictIncB (s :: rest)

/-- The well-formedness invariant of an SCD2 table: every key's records tile
(Invariant I1) and carry pairwise-distinct `effective_ts` values. -/
def scd2Inv (tbl : List SRow) : Prop :=
  ∀ k ∈ keysOf tbl,
    tilesB (sortByEff (partitionOf tbl k)) = true ∧
    strictIncB (sortByEff (partitionOf tbl k)) = true

instance : DecidablePred scd2Inv := fun tbl =>
  inferInstanceAs (Decidable (∀ k ∈ keysOf tbl, _ ∧ _))

/-- The incoming batch only appends history: every incoming row is strictly
later than every record its key already has in the table. -/
def srcLate (tbl : List SRow) (src : List InRow) : Prop :=
  ∀ s ∈ src, ∀ t ∈ tbl, t.key = s.key → t.eff < s.eff

instance : Decidable (srcLate tbl src) :=
  inferInstanceAs (Decidable (∀ s ∈ src, ∀ t ∈ tbl, t.key = s.key → t.eff < s.eff))

/-- No two rows of the incoming batch share the `keys + [effective_ts]`
merge key. -/
def srcDistinct (src : List InRow) : Prop :=
  src.Pairwise (fun a b => ¬(a.key = b.key ∧ a.eff = b.eff))

instance : Decidable (srcDistinct src) :=
  inferInstanceAs (Decidable (src.Pairwise _))

/-!  Theorems.  Each claim of the specification gets exactly one theorem
(plus, where the claim fails, a concrete counterexample and an amended
theorem; plus a closed witness wherever a theorem carries hypotheses). -/

/-- C2: applying `apply_scd` with `mode=type2` and incoming batch
`[{id:1, ts:1}, {id:1, ts:2}]` to an empty table produces exactly the two
rows `{id:1, ts:1, end:2}` and `{id:1, ts:2, end:null}`. -/
theorem scd2_scenarioA :
    (scdRun [] [⟨1, 1, 0⟩, ⟨1, 2, 0⟩] (some "end") 2 []).result =
      .ok [⟨1, 1, some 2, 0⟩, ⟨1, 2, none, 0⟩] := by decide

/-- C8, counterexample to the claim as stated: after `detail` returns, the
metadata record does not still carry the original numeric file count and
size — `humanize` wrote the human-formatted strings over them in place. -/
theorem detail_numerics_lost :
    (detail ⟨.num 3, .num 1024, "loc"⟩).num_files ≠ .num 3 ∧
    (detail ⟨.num 3, .num 1024, "loc"⟩).size ≠ .num 1024 ∧
    (detail ⟨.num 3, .num 1024, "loc"⟩).num_files = .str (humanizeNumber (.num 3)) ∧
    (detail ⟨.num 3, .num 1024, "loc"⟩).size = .str (humanizeBytes (.num 1024)) := by
  refine ⟨fun h => ?_, fun h => ?_, rfl, rfl⟩ <;> simp [detail, DetailOutput.humanize] at h

/-- C8, amended: `detail` returns the record with the human-formatted
strings written over the numeric `num_files` and `size` fields; the original
numeric values are no longer carried anywhere in the returned record (only
the untouched fields, such as the location, survive unchanged). -/
theorem detail_humanize_overwrites (d : DetailOutput) (n m : Nat)
    (hn : d.num_files = .num n) (hm : d.size = .num m) :
    (detail d).num_files = .str (humanizeNumber (.num n)) ∧
    (detail d).size = .str (humanizeBytes (.num m)) ∧
    (∀ j : Nat, (detail d).num_files ≠ .num j) ∧
    (∀ j : Nat, (detail d).size ≠ .num j) ∧
    (detail d).location = d.location := by
  simp [detail, DetailOutput.humanize, hn, hm]

/-- Witness for `detail_humanize_overwrites` at a concrete record. -/
theorem detail_humanize_overwrites_witness :
    (DetailOutput.mk (.num 3) (.num 1024) "loc").num_files = .num 3 ∧
    (DetailOutput.mk (.num 3) (.num 1024) "loc").size = .num 1024 ∧
    ((detail ⟨.num 3, .num 1024, "loc"⟩).num_files = .str (humanizeNumber (.num 3)) ∧
     (detail ⟨.num 3, .num 1024, "loc"⟩).size = .str (humanizeBytes (.num 1024)) ∧
     (∀ j : Nat, (detail ⟨.num 3, .num 1024, "loc"⟩).num_files ≠ .num j) ∧
     (∀ j : Nat, (detail ⟨.num 3, .num 1024, "loc"⟩).size ≠ .num j) ∧
     (detail ⟨.num 3, .num 1024, "loc"⟩).location = "loc") :=
  ⟨rfl, rfl, detail_humanize_overwrites ⟨.num 3, .num 1024, "loc"⟩ 3 1024 rfl rfl⟩

/-- C9: when both a storage path and a table identifier are supplied,
`bootstrap_scd2` writes the computed rows via the table-identifier branch
(`saveAsTable` / resolved by name); the path branch runs only when a path is
supplied and a table identifier is not. -/
theorem bootstrap_branch_priority (src : List InRow) (p t : String)
    (hp : p ≠ "") (ht : t ≠ "") :
    bootstrapScd2 src (some p) (some t) = .ok (.byName t, bootstrapPayload src) ∧
    ∀ p' t' q rows, bootstrapScd2 src p' t' = .ok (.byPath q, rows) →
      truthyS p' = true ∧ truthyS t' = false := by
  constructor
  · simp [bootstrapScd2, truthyS, hp, ht]
  · intro p' t' q rows h
    unfold bootstrapScd2 at h
    by_cases h1 : truthyS p' = false ∧ truthyS t' = false
    · simp [h1] at h
    · by_cases h2 : truthyS t' = true
      · simp [h1, h2] at h
      · have ht' : truthyS t' = false := by
          cases hb : truthyS t' with
          | false => rfl
          | true => exact absurd hb h2
        have hp' : truthyS p' = true := by
          cases hb : truthyS p' with
          | false => exact absurd ⟨hb, ht'⟩ h1
          | true => rfl
        exact ⟨hp', ht'⟩

/-- Witness for `bootstrap_branch_priority` at a concrete input. -/
theorem bootstrap_branch_priority_witness :
    ("p" : String) ≠ "" ∧ ("t" : String) ≠ "" ∧
    (bootstrapScd2 [⟨1, 1, 0⟩] (some "p") (some "t") =
        .ok (.byName "t", bootstrapPayload [⟨1, 1, 0⟩]) ∧
      ∀ p' t' q rows, bootstrapScd2 [⟨1, 1, 0⟩] p' t' = .ok (.byPath q, rows) →
        truthyS p' = true ∧ truthyS t' = false) :=
  ⟨by decide, by decide, bootstrap_branch_priority [⟨1, 1, 0⟩] "p" "t" (by decide) (by decide)⟩

/-- C5: `apply_scd` fails with a configuration error — issuing zero store
calls — exactly when the mode is type 2 and `end_ts` is absent (not provided,
i.e. Python-falsy: `None` or empty, the code's `if not end_ts` check), or
when the mode is neither 1 nor 2; every other input proceeds without a
configuration error, and store calls are issued exactly when no
configuration error is raised. -/
theorem scd_config_error_iff (tbl : List SRow) (src : List InRow)
    (endTs : Option String) (scdType : Nat) (conflicts : List Bool) :
    ((scdRun tbl src endTs scdType conflicts).result = .error .configError ↔
      (scdType = 2 ∧ truthyS endTs = false) ∨ (scdType ≠ 1 ∧ scdType ≠ 2)) ∧
    ((scdRun tbl src endTs scdType conflicts).calls = [] ↔
      (scdRun tbl src endTs scdType conflicts).result = .error .configError) := by
  unfold scdRun
  split_ifs with h1 h2 h3 h4 h5 <;> simp_all

/-- C6, counterexample to the claim as stated: with a store double that
reports a conflict on the first merge attempt and would succeed on a second,
the engine does not retry — it surfaces the conflict after a single merge
attempt, and its outcome differs from the uncontended run. -/
theorem scd_conflict_no_retry_counterexample :
    (scdRun [] [⟨1, 1, 0⟩] (some "end") 2 [true, false]).result = .error .conflictError ∧
    (scdRun [] [⟨1, 1, 0⟩] (some "end") 2 []).result = .ok [⟨1, 1, none, 0⟩] ∧
    (scdRun [] [⟨1, 1, 0⟩] (some "end") 2 [true, false]).result ≠
      (scdRun [] [⟨1, 1, 0⟩] (some "end") 2 []).result ∧
    (scdRun [] [⟨1, 1, 0⟩] (some "end") 2 [true, false]).calls.count .mergeAttempt = 1 := by
  decide

/-- C6, amended: the engines issue exactly one merge attempt; a conflict
reported by the store on that attempt is surfaced directly to the caller with
no internal retry, in both type-2 and type-1 mode. -/
theorem scd_conflict_single_attempt (tbl : List SRow) (src : List InRow)
    (e : String) (rest : List Bool) (he : e ≠ "") :
    (scdRun tbl src (some e) 2 (true :: rest)).result = .error .conflictError ∧
    (scdRun tbl src (some e) 2 (true :: rest)).calls.count .mergeAttempt = 1 ∧
    (scdRun tbl src (some e) 1 (true :: rest)).result = .error .conflictError ∧
    (scdRun tbl src (some e) 1 (true :: rest)).calls.count .mergeAttempt = 1 := by
  simp [scdRun, truthyS, he, List.count_cons, List.count_nil]

/-- Witness for `scd_conflict_single_attempt` at a concrete input. -/
theorem scd_conflict_single_attempt_witness :
    ("end" : String) ≠ "" ∧
    ((scdRun [] [⟨1, 1, 0⟩] (some "end") 2 (true :: [])).result = .error .conflictError ∧
     (scdRun [] [⟨1, 1, 0⟩] (some "end") 2 (true :: [])).calls.count .mergeAttempt = 1 ∧
     (scdRun [] [⟨1, 1, 0⟩] (some "end") 1 (true :: [])).result = .error .conflictError ∧
     (scdRun [] [⟨1, 1, 0⟩] (some "end") 1 (true :: [])).calls.count .mergeAttempt = 1) :=
  ⟨by decide, scd_conflict_single_attempt [] [⟨1, 1, 0⟩] "end" [] (by decide)⟩

/-- C7: `bootstrap_scd2` computes `end_ts` with the same windowed-lead
computation as step 3 of the type-2 merge, and the table it writes equals the
table a type-2 merge of the same batch produces against an empty snapshot. -/
theorem bootstrap_equals_scd2_on_empty (src : List InRow) (e p : String)
    (he : e ≠ "") (hp : p ≠ "") :
    (scdRun [] src (some e) 2 []).result = .ok (bootstrapPayload src) ∧
    bootstrapScd2 src (some p) none = .ok (.byPath p, bootstrapPayload src) := by
  have hte : truthyS (some e) = true := by simp [truthyS, he]
  constructor
  · simp [scdRun, hte, scd2Table, scd2Payload, updatedRows, bootstrapPayload, mergeUpsert]
  · simp [bootstrapScd2, truthyS, hp]

/-- Witness for `bootstrap_equals_scd2_on_empty` at a concrete input. -/
theorem bootstrap_equals_scd2_on_empty_witness :
    ("end" : String) ≠ "" ∧ ("p" : String) ≠ "" ∧
    ((scdRun [] [⟨1, 1, 0⟩, ⟨1, 2, 0⟩] (some "end") 2 []).result =
        .ok (bootstrapPayload [⟨1, 1, 0⟩, ⟨1, 2, 0⟩]) ∧
      bootstrapScd2 [⟨1, 1, 0⟩, ⟨1, 2, 0⟩] (some "p") none =
        .ok (.byPath "p", bootstrapPayload [⟨1, 1, 0⟩, ⟨1, 2, 0⟩])) :=
  ⟨by decide, by decide,
    bootstrap_equals_scd2_on_empty [⟨1, 1, 0⟩, ⟨1, 2, 0⟩] "end" "p" (by decide) (by decide)⟩

/-- C10: on a table in which no key occurs more than once, `deduplicate`
leaves the row set unchanged — the duplicate-key set is empty, the
delete-matched merge removes no rows, the append adds no rows — and the
empty staged dataset is still written to the temporary path. -/
theorem dedup_noop_when_unique (tbl : List (List Int)) (tempPath : String)
    (keys tiebreak : List Nat)
    (h : ∀ r ∈ tbl, countKey tbl keys (proj keys r) ≤ 1) :
    dupeKeySet tbl keys = [] ∧
    (deduplicate tbl tempPath keys tiebreak).result = tbl ∧
    (deduplicate tbl tempPath keys tiebreak).staged = [] ∧
    (deduplicate tbl tempPath keys tiebreak).calls =
      [.writeTemp tempPath [], .mergeDelete [], .appendTarget []] := by
  have hd : dupeRows tbl keys = [] := by
    rw [dupeRows, List.filter_eq_nil_iff]
    intro r hr
    simp only [decide_eq_true_eq, not_lt]
    exact h r hr
  have hk : dupeKeySet tbl keys = [] := by rw [dupeKeySet, hd]; rfl
  refine ⟨hk, ?_, ?_, ?_⟩ <;>
    simp [deduplicate, hd, hk, survivorsTB, dropDupsByKey, dropDupsGo,
      List.filter_eq_self]

/-- Witness for `dedup_noop_when_unique` at a concrete duplicate-free table. -/
theorem dedup_noop_when_unique_witness :
    (∀ r ∈ [[0, 1], [2, 3]], countKey [[0, 1], [2, 3]] [0] (proj [0] r) ≤ 1) ∧
    (dupeKeySet [[0, 1], [2, 3]] [0] = [] ∧
      (deduplicate [[0, 1], [2, 3]] "tmp" [0] [1]).result = [[0, 1], [2, 3]] ∧
      (deduplicate [[0, 1], [2, 3]] "tmp" [0] [1]).staged = [] ∧
      (deduplicate [[0, 1], [2, 3]] "tmp" [0] [1]).calls =
        [.writeTemp "tmp" [], .mergeDelete [], .appendTarget []]) :=
  ⟨by decide, dedup_noop_when_unique [[0, 1], [2, 3]] "tmp" [0] [1] (by decide)⟩

lemma take1_rank_mem {src : List InRow} {k : Nat} {r : InRow}
    (hr : r ∈ ((partitionIn src k).insertionSort effGeIn).take 1) :
    r ∈ src ∧ r.key = k := by
  have h1 : r ∈ (partitionIn src k).insertionSort effGeIn := List.mem_of_mem_take hr
  have h2 : r ∈ partitionIn src k := (List.perm_insertionSort effGeIn _).mem_iff.mp h1
  refine ⟨List.mem_of_mem_filter h2, ?_⟩
  have h3 := List.of_mem_filter h2
  simpa using h3

lemma rank1_aux_mem (src : List InRow) (ks : List Nat) :
    ∀ r ∈ ks.foldr
      (fun k acc => ((partitionIn src k).insertionSort effGeIn).take 1 ++ acc) [],
      r ∈ src ∧ r.key ∈ ks := by
  induction ks with
  | nil => intro r hr; simp at hr
  | cons k ks ih =>
    intro r hr
    rw [List.foldr_cons] at hr
    rcases List.mem_append.mp hr with h | h
    · obtain ⟨hs, hk⟩ := take1_rank_mem h
      exact ⟨hs, by simp [hk]⟩
    · obtain ⟨hs, hk⟩ := ih r h
      exact ⟨hs, List.mem_cons_of_mem _ hk⟩

lemma pairwise_of_length_le_one {α : Type} {R : α → α → Prop} :
    ∀ {l : List α}, l.length ≤ 1 → l.Pairwise R
  | [], _ => List.Pairwise.nil
  | [x], _ => List.pairwise_singleton R x
  | _ :: _ :: _, h => by simp at h

lemma rank1_aux_pairwise (src : List InRow) (ks : List Nat) (hnd : ks.Nodup) :
    (ks.foldr
      (fun k acc => ((partitionIn src k).insertionSort effGeIn).take 1 ++ acc)
      []).Pairwise (fun a b => a.key ≠ b.key) := by
  induction ks with
  | nil => simp
  | cons k ks ih =>
    rw [List.foldr_cons]
    rcases List.nodup_cons.mp hnd with ⟨hk, hnd'⟩
    refine List.pairwise_append.mpr
      ⟨pairwise_of_length_le_one (List.length_take_le 1 _), ih hnd', ?_⟩
    intro a ha b hb
    obtain ⟨_, hak⟩ := take1_rank_mem ha
    obtain ⟨_, hbk⟩ := rank1_aux_mem src ks b hb
    rw [hak]
    intro hcon
    rw [← hcon] at hbk
    exact hk hbk

lemma rank1_aux_filter (src : List InRow) (ks : List Nat) (hnd : ks.Nodup)
    (κ : Nat) (hκ : κ ∈ ks) :
    (ks.foldr
      (fun k acc => ((partitionIn src k).insertionSort effGeIn).take 1 ++ acc)
      []).filter (fun x => x.key == κ) =
      ((partitionIn src κ).insertionSort effGeIn).take 1 := by
  induction ks with
  | nil => simp at hκ
  | cons k ks ih =>
    rcases List.nodup_cons.mp hnd with ⟨hk, hnd'⟩
    rw [List.foldr_cons, List.filter_append]
    rcases List.mem_cons.mp hκ with h | h
    · subst h
      have h1 : (((partitionIn src κ).insertionSort effGeIn).take 1).filter
          (fun x => x.key == κ) = ((partitionIn src κ).insertionSort effGeIn).take 1 :=
        List.filter_eq_self.mpr (fun a ha => by simp [(take1_rank_mem ha).2])
      have h2 : (ks.foldr
          (fun k acc => ((partitionIn src k).insertionSort effGeIn).take 1 ++ acc)
          []).filter (fun x => x.key == κ) = [] := by
        rw [List.filter_eq_nil_iff]
        intro a ha
        have h3 := (rank1_aux_mem src ks a ha).2
        simp only [beq_iff_eq]
        intro hcon
        rw [hcon] at h3
        exact hk h3
      rw [h1, h2, List.append_nil]
    · have hkκ : k ≠ κ := fun hcon => hk (hcon ▸ h)
      have h1 : (((partitionIn src k).insertionSort effGeIn).take 1).filter
          (fun x => x.key == κ) = [] := by
        rw [List.filter_eq_nil_iff]
        intro a ha
        have := (take1_rank_mem ha).2
        simp [this, hkκ]
      rw [h1, List.nil_append]
      exact ih hnd' h

lemma rank1_pairwise (src : List InRow) :
    (rank1 src).Pairwise (fun a b => a.key ≠ b.key) :=
  rank1_aux_pairwise src (keysOfIn src) (List.nodup_dedup _)

lemma rank1_mem {src : List InRow} {r : InRow} (hr : r ∈ rank1 src) : r ∈ src :=
  (rank1_aux_mem src (keysOfIn src) r hr).1

lemma rank1_max (src : List InRow) (κ : Nat) (hκ : κ ∈ keysOfIn src) :
    ∃ r, (rank1 src).filter (fun x => x.key == κ) = [r] ∧ r ∈ src ∧ r.key = κ ∧
      ∀ x ∈ src, x.key = κ → x.eff ≤ r.eff := by
  have hfil := rank1_aux_filter src (keysOfIn src) (List.nodup_dedup _) κ hκ
  obtain ⟨x, hx, hxκ⟩ := by
    simpa [keysOfIn, List.mem_dedup] using hκ
  have hxp : x ∈ partitionIn src κ := List.mem_filter.mpr ⟨hx, by simp [hxκ]⟩
  have hne : (partitionIn src κ).insertionSort effGeIn ≠ [] := by
    intro hcon
    have := (List.perm_insertionSort effGeIn (partitionIn src κ)).symm.mem_iff.mp hxp
    rw [hcon] at this
    simp at this
  obtain ⟨m, rest, hsort⟩ : ∃ m rest,
      (partitionIn src κ).insertionSort effGeIn = m :: rest := by
    cases hs : (partitionIn src κ).insertionSort effGeIn with
    | nil => exact absurd hs hne
    | cons m rest => exact ⟨m, rest, rfl⟩
  have hm : m ∈ ((partitionIn src κ).insertionSort effGeIn).take 1 := by
    rw [hsort]; simp
  obtain ⟨hmsrc, hmκ⟩ := take1_rank_mem hm
  refine ⟨m, ?_, hmsrc, hmκ, ?_⟩
  · rw [rank1, hfil, hsort]
    rfl
  · intro y hy hyκ
    have hyp : y ∈ partitionIn src κ := List.mem_filter.mpr ⟨hy, by simp [hyκ]⟩
    have hys : y ∈ m :: rest := by
      rw [← hsort]
      exact (List.perm_insertionSort effGeIn _).symm.mem_iff.mp hyp
    rcases List.mem_cons.mp hys with h | h
    · rw [h]
    · have hsorted : List.Sorted effGeIn (m :: rest) := by
        rw [← hsort]
        exact List.sorted_insertionSort effGeIn _
      exact List.rel_of_sorted_cons hsorted y h

lemma scd1Upd_key (P : List InRow) (t : SRow) : (scd1Upd P t).key = t.key := by
  unfold scd1Upd
  cases h : P.find? (fun s => s.key == t.key) with
  | none => rfl
  | some s =>
    have := List.find?_some h
    simpa using this

lemma find?_key_of_nodup {P : List InRow}
    (hnd : P.Pairwise (fun a b => a.key ≠ b.key)) {s : InRow} (hs : s ∈ P) :
    P.find? (fun r => r.key == s.key) = some s := by
  induction P with
  | nil => cases hs
  | cons p ps ih =>
    rcases List.pairwise_cons.mp hnd with ⟨hp, hnd'⟩
    rcases List.mem_cons.mp hs with h | h
    · subst h
      exact List.find?_cons_of_pos _ (by simp)
    · have hne : p.key ≠ s.key := hp s h
      rw [List.find?_cons_of_neg _ (by simp [hne])]
      exact ih hnd' h

lemma scd1Upd_idem (P : List InRow) (t : SRow) :
    scd1Upd P (scd1Upd P t) = scd1Upd P t := by
  cases h : P.find? (fun s => s.key == t.key) with
  | none =>
    have h1 : scd1Upd P t = t := by simp [scd1Upd, h]
    rw [h1, h1]
  | some s =>
    have hsk : s.key = t.key := by simpa using List.find?_some h
    have h1 : scd1Upd P t = { key := s.key, eff := s.eff, endTs := t.endTs, val := s.val } := by
      simp [scd1Upd, h]
    rw [h1]
    simp [scd1Upd, hsk, h]

lemma scd1Upd_insert {P : List InRow}
    (hnd : P.Pairwise (fun a b => a.key ≠ b.key)) {s : InRow} (hs : s ∈ P) :
    scd1Upd P s.toSRow = s.toSRow := by
  have hf : P.find? (fun r => r.key == s.toSRow.key) = some s :=
    find?_key_of_nodup hnd hs
  unfold scd1Upd
  rw [hf]
  rfl

lemma mergeUpsert1_key_present (tbl : List SRow) (P : List InRow)
    {s : InRow} (hs : s ∈ P) :
    (mergeUpsert1 tbl P).any (fun t => t.key == s.key) = true := by
  by_cases h : tbl.any (fun t => t.key == s.key) = true
  · obtain ⟨t, ht, htk⟩ := List.any_eq_true.mp h
    refine List.any_eq_true.mpr ⟨scd1Upd P t, ?_, ?_⟩
    · exact List.mem_append_left _ (List.mem_map_of_mem _ ht)
    · rw [scd1Upd_key]
      exact htk
  · refine List.any_eq_true.mpr ⟨s.toSRow, ?_, by simp [InRow.toSRow]⟩
    refine List.mem_append_right _ (List.mem_map_of_mem _ ?_)
    refine List.mem_filter.mpr ⟨hs, ?_⟩
    simp only [Bool.not_eq_true] at h
    simp [h]

lemma mergeUpsert1_idem (tbl : List SRow) (P : List InRow)
    (hnd : P.Pairwise (fun a b => a.key ≠ b.key)) :
    mergeUpsert1 (mergeUpsert1 tbl P) P = mergeUpsert1 tbl P := by
  have hfil : P.filter
      (fun s => !((mergeUpsert1 tbl P).any (fun t => t.key == s.key))) = [] := by
    rw [List.filter_eq_nil_iff]
    intro s hs
    simp [mergeUpsert1_key_present tbl P hs]
  have hmap : (mergeUpsert1 tbl P).map (scd1Upd P) = mergeUpsert1 tbl P := by
    conv_lhs => rw [mergeUpsert1]
    conv_rhs => rw [mergeUpsert1]
    rw [List.map_append, List.map_map, List.map_map]
    congr 1
    · exact List.map_congr_left (fun t _ => scd1Upd_idem P t)
    · refine List.map_congr_left (fun s hsf => ?_)
      have hs : s ∈ P := List.mem_of_mem_filter hsf
      show scd1Upd P s.toSRow = s.toSRow
      exact scd1Upd_insert hnd hs
  conv_lhs => rw [mergeUpsert1]
  rw [hfil, hmap]
  simp

/-- C4: the type-1 merge is idempotent — applying the same incoming batch
twice yields the same table as applying it once — and per key exactly one
row of the batch survives into the merge payload: a row carrying the
maximum `effective_ts` of its key (ties resolved arbitrarily by the rank-1
window). -/
theorem scd1_idempotent_and_max (tbl : List SRow) (src : List InRow) :
    scd1Table (scd1Table tbl src) src = scd1Table tbl src ∧
    ∀ κ ∈ keysOfIn src, ∃ r,
      (rank1 src).filter (fun x => x.key == κ) = [r] ∧ r ∈ src ∧ r.key = κ ∧
      ∀ x ∈ src, x.key = κ → x.eff ≤ r.eff := by
  constructor
  · exact mergeUpsert1_idem tbl (rank1 src) (rank1_pairwise src)
  · exact fun κ hκ => rank1_max src κ hκ

/-- Witness for `scd1_idempotent_and_max` at a concrete table and batch. -/
theorem scd1_idempotent_and_max_witness :
    scd1Table
        (scd1Table [⟨1, 0, some 9, 5⟩] ([⟨1, 1, 1⟩, ⟨1, 2, 2⟩, ⟨2, 5, 7⟩] : List InRow))
        ([⟨1, 1, 1⟩, ⟨1, 2, 2⟩, ⟨2, 5, 7⟩] : List InRow) =
      scd1Table [⟨1, 0, some 9, 5⟩] ([⟨1, 1, 1⟩, ⟨1, 2, 2⟩, ⟨2, 5, 7⟩] : List InRow) ∧
    ∀ κ ∈ keysOfIn ([⟨1, 1, 1⟩, ⟨1, 2, 2⟩, ⟨2, 5, 7⟩] : List InRow), ∃ r,
      (rank1 ([⟨1, 1, 1⟩, ⟨1, 2, 2⟩, ⟨2, 5, 7⟩] : List InRow)).filter
          (fun x => x.key == κ) = [r] ∧
      r ∈ ([⟨1, 1, 1⟩, ⟨1, 2, 2⟩, ⟨2, 5, 7⟩] : List InRow) ∧ r.key = κ ∧
      ∀ x ∈ ([⟨1, 1, 1⟩, ⟨1, 2, 2⟩, ⟨2, 5, 7⟩] : List InRow), x.key = κ → x.eff ≤ r.eff :=
  scd1_idempotent_and_max [⟨1, 0, some 9, 5⟩] [⟨1, 1, 1⟩, ⟨1, 2, 2⟩, ⟨2, 5, 7⟩]

lemma lexGeB_refl : ∀ a : List Int, lexGeB a a = true := by
  intro a
  induction a with
  | nil => rfl
  | cons x xs ih => simp [lexGeB, lt_irrefl, ih]

lemma lexGeB_total : ∀ a b : List Int, lexGeB a b = true ∨ lexGeB b a = true := by
  intro a
  induction a with
  | nil => intro b; left; rfl
  | cons x xs ih =>
    intro b
    cases b with
    | nil => left; rfl
    | cons y ys =>
      rcases lt_trichotomy x y with h | h | h
      · right; simp [lexGeB, h]
      · subst h
        rcases ih ys with h2 | h2
        · left; simpa [lexGeB, lt_irrefl] using h2
        · right; simpa [lexGeB, lt_irrefl] using h2
      · left; simp [lexGeB, h]

lemma lexGeB_trans : ∀ a b c : List Int, a.length = b.length → b.length = c.length →
    lexGeB a b = true → lexGeB b c = true → lexGeB a c = true := by
  intro a
  induction a with
  | nil => intro b c _ _ _ _; rfl
  | cons x xs ih =>
    intro b c hab hbc h1 h2
    cases b with
    | nil => simp at hab
    | cons y ys =>
      cases c with
      | nil => simp at hbc
      | cons z zs =>
        simp only [List.length_cons, Nat.succ.injEq] at hab hbc
        simp only [lexGeB] at h1 h2 ⊢
        split_ifs at h1 h2 ⊢ <;> first
          | rfl
          | omega
          | (exact ih ys zs hab hbc h1 h2)

lemma proj_length (cols : List Nat) (r : List Int) : (proj cols r).length = cols.length := by
  simp [proj]

lemma dupeRows_mem {tbl : List (List Int)} {keys : List Nat} {r : List Int}
    (hr : r ∈ dupeRows tbl keys) :
    r ∈ tbl ∧ 1 < countKey tbl keys (proj keys r) := by
  refine ⟨List.mem_of_mem_filter hr, ?_⟩
  have := List.of_mem_filter hr
  simpa using this

lemma dupeKeySet_spec (tbl : List (List Int)) (keys : List Nat) (κ : List Int) :
    κ ∈ dupeKeySet tbl keys ↔ 1 < countKey tbl keys κ := by
  constructor
  · intro h
    rw [dupeKeySet, List.mem_dedup] at h
    obtain ⟨r, hr, hrκ⟩ := List.mem_map.mp h
    obtain ⟨_, hcount⟩ := dupeRows_mem hr
    rw [hrκ] at hcount
    exact hcount
  · intro h
    have hpos : 0 < (tbl.filter (fun r => proj keys r == κ)).length := by
      have : (1 : Nat) < (tbl.filter (fun r => proj keys r == κ)).length := h
      omega
    obtain ⟨r, hr⟩ := List.exists_mem_of_length_pos hpos
    have hrt : r ∈ tbl := List.mem_of_mem_filter hr
    have hrκ : proj keys r = κ := by
      have := List.of_mem_filter hr
      simpa using this
    rw [dupeKeySet, List.mem_dedup]
    refine List.mem_map.mpr ⟨r, ?_, hrκ⟩
    refine List.mem_filter.mpr ⟨hrt, ?_⟩
    simp only [decide_eq_true_eq]
    rw [hrκ]
    exact h

lemma dupe_partition_eq (tbl : List (List Int)) (keys : List Nat) (κ : List Int)
    (hdup : 1 < countKey tbl keys κ) :
    (dupeRows tbl keys).filter (fun r => proj keys r == κ) =
      tbl.filter (fun r => proj keys r == κ) := by
  rw [dupeRows, List.filter_comm]
  apply List.filter_eq_self.mpr
  intro r hr
  have hrκ : proj keys r = κ := by
    have := List.of_mem_filter hr
    simpa using this
  simp only [decide_eq_true_eq]
  rw [hrκ]
  exact hdup

lemma take1_surv_mem {tbl : List (List Int)} {keys tiebreak : List Nat}
    {κ' r : List Int}
    (hr : r ∈ (((dupeRows tbl keys).filter (fun x => proj keys x == κ')).insertionSort
      (rowGe tiebreak)).take 1) :
    r ∈ dupeRows tbl keys ∧ proj keys r = κ' := by
  have h1 := List.mem_of_mem_take hr
  have h2 := (List.perm_insertionSort (rowGe tiebreak) _).mem_iff.mp h1
  refine ⟨List.mem_of_mem_filter h2, ?_⟩
  have h3 := List.of_mem_filter h2
  simpa using h3

lemma surv_aux_mem (tbl : List (List Int)) (keys tiebreak : List Nat)
    (ks : List (List Int)) :
    ∀ r ∈ ks.foldr
      (fun κ acc =>
        (((dupeRows tbl keys).filter (fun x => proj keys x == κ)).insertionSort
          (rowGe tiebreak)).take 1 ++ acc) [],
      r ∈ dupeRows tbl keys ∧ proj keys r ∈ ks := by
  induction ks with
  | nil => intro r hr; simp at hr
  | cons κ' ks ih =>
    intro r hr
    rw [List.foldr_cons] at hr
    rcases List.mem_append.mp hr with h | h
    · obtain ⟨hs, hk⟩ := take1_surv_mem h
      exact ⟨hs, by simp [hk]⟩
    · obtain ⟨hs, hk⟩ := ih r h
      exact ⟨hs, List.mem_cons_of_mem _ hk⟩

lemma surv_aux_filter (tbl : List (List Int)) (keys tiebreak : List Nat)
    (ks : List (List Int)) (hnd : ks.Nodup) (κ : List Int) (hκ : κ ∈ ks) :
    (ks.foldr
      (fun κ' acc =>
        (((dupeRows tbl keys).filter (fun x => proj keys x == κ')).insertionSort
          (rowGe tiebreak)).take 1 ++ acc) []).filter (fun x => proj keys x == κ) =
      (((dupeRows tbl keys).filter (fun x => proj keys x == κ)).insertionSort
        (rowGe tiebreak)).take 1 := by
  induction ks with
  | nil => simp at hκ
  | cons k ks ih =>
    rcases List.nodup_cons.mp hnd with ⟨hk, hnd'⟩
    rw [List.foldr_cons, List.filter_append]
    rcases List.mem_cons.mp hκ with h | h
    · subst h
      have h1 : ((((dupeRows tbl keys).filter (fun x => proj keys x == κ)).insertionSort
          (rowGe tiebreak)).take 1).filter (fun x => proj keys x == κ) =
          (((dupeRows tbl keys).filter (fun x => proj keys x == κ)).insertionSort
            (rowGe tiebreak)).take 1 :=
        List.filter_eq_self.mpr (fun a ha => by simp [(take1_surv_mem ha).2])
      have h2 : (ks.foldr
          (fun κ' acc =>
            (((dupeRows tbl keys).filter (fun x => proj keys x == κ')).insertionSort
              (rowGe tiebreak)).take 1 ++ acc) []).filter
            (fun x => proj keys x == κ) = [] := by
        rw [List.filter_eq_nil_iff]
        intro a ha
        have h3 := (surv_aux_mem tbl keys tiebreak ks a ha).2
        simp only [beq_iff_eq]
        intro hcon
        rw [hcon] at h3
        exact hk h3
      rw [h1, h2, List.append_nil]
    · have hkκ : k ≠ κ := fun hcon => hk (hcon ▸ h)
      have h1 : ((((dupeRows tbl keys).filter (fun x => proj keys x == k)).insertionSort
          (rowGe tiebreak)).take 1).filter (fun x => proj keys x == κ) = [] := by
        rw [List.filter_eq_nil_iff]
        intro a ha
        have := (take1_surv_mem ha).2
        simp [this, hkκ]
      rw [h1, List.nil_append]
      exact ih hnd' h

lemma dropDupsGo_subset (keys : List Nat) :
    ∀ (l seen : List (List Int)) (r : List Int), r ∈ dropDupsGo keys seen l → r ∈ l := by
  intro l
  induction l with
  | nil => intro seen r hr; simp [dropDupsGo] at hr
  | cons x xs ih =>
    intro seen r hr
    rw [dropDupsGo] at hr
    by_cases hx : proj keys x ∈ seen
    · rw [if_pos hx] at hr
      exact List.mem_cons_of_mem _ (ih seen r hr)
    · rw [if_neg hx] at hr
      rcases List.mem_cons.mp hr with h | h
      · exact h ▸ List.mem_cons_self x xs
      · exact List.mem_cons_of_mem _ (ih _ r h)

lemma dropDupsGo_filter_le_one (keys : List Nat) (κ : List Int) :
    ∀ (l seen : List (List Int)),
      ((dropDupsGo keys seen l).filter (fun r => proj keys r == κ)).length ≤ 1 ∧
      (κ ∈ seen →
        ((dropDupsGo keys seen l).filter (fun r => proj keys r == κ)).length = 0) := by
  intro l
  induction l with
  | nil => intro seen; simp [dropDupsGo]
  | cons x xs ih =>
    intro seen
    rw [dropDupsGo]
    by_cases hx : proj keys x ∈ seen
    · rw [if_pos hx]
      exact ih seen
    · rw [if_neg hx]
      by_cases hxκ : proj keys x = κ
      · have hfil : ((x :: dropDupsGo keys (proj keys x :: seen) xs).filter
            (fun r => proj keys r == κ)).length =
            1 + ((dropDupsGo keys (proj keys x :: seen) xs).filter
              (fun r => proj keys r == κ)).length := by
          rw [List.filter_cons_of_pos (by simp [hxκ])]
          simp [Nat.add_comm]
        have hrest : ((dropDupsGo keys (proj keys x :: seen) xs).filter
            (fun r => proj keys r == κ)).length = 0 :=
          (ih (proj keys x :: seen)).2 (by rw [hxκ]; exact List.mem_cons_self _ _)
        constructor
        · rw [hfil, hrest]
        · intro hκs
          exact absurd (hxκ ▸ hκs) hx
      · have hfil : ((x :: dropDupsGo keys (proj keys x :: seen) xs).filter
            (fun r => proj keys r == κ)) =
            (dropDupsGo keys (proj keys x :: seen) xs).filter
              (fun r => proj keys r == κ) := by
          rw [List.filter_cons_of_neg (by simp [hxκ])]
        constructor
        · rw [hfil]
          exact (ih _).1
        · intro hκs
          rw [hfil]
          exact (ih _).2 (List.mem_cons_of_mem _ hκs)

lemma staged_filter_le_one (tbl : List (List Int)) (keys tiebreak : List Nat)
    (κ : List Int) :
    ((if tiebreak.isEmpty then dropDupsByKey keys (dupeRows tbl keys)
        else survivorsTB tbl keys tiebreak).filter
      (fun r => proj keys r == κ)).length ≤ 1 := by
  by_cases htb : tiebreak.isEmpty
  · rw [if_pos htb]
    exact (dropDupsGo_filter_le_one keys κ (dupeRows tbl keys) []).1
  · rw [if_neg htb]
    by_cases hκ : κ ∈ dupeKeySet tbl keys
    · rw [survivorsTB,
        surv_aux_filter tbl keys tiebreak (dupeKeySet tbl keys)
          (List.nodup_dedup _) κ hκ]
      exact List.length_take_le 1 _
    · have h0 : (survivorsTB tbl keys tiebreak).filter
          (fun r => proj keys r == κ) = [] := by
        rw [List.filter_eq_nil_iff]
        intro a ha
        have h1 := (surv_aux_mem tbl keys tiebreak (dupeKeySet tbl keys) a ha).2
        simp only [beq_iff_eq]
        intro hcon
        rw [hcon] at h1
        exact hκ h1
      rw [h0]
      simp

lemma staged_filter_not_dup (tbl : List (List Int)) (keys tiebreak : List Nat)
    (κ : List Int) (hdup : ¬ 1 < countKey tbl keys κ) :
    (if tiebreak.isEmpty then dropDupsByKey keys (dupeRows tbl keys)
        else survivorsTB tbl keys tiebreak).filter
      (fun r => proj keys r == κ) = [] := by
  rw [List.filter_eq_nil_iff]
  intro r hr
  have hrd : r ∈ dupeRows tbl keys := by
    by_cases htb : tiebreak.isEmpty
    · rw [if_pos htb] at hr
      exact dropDupsGo_subset keys _ [] r hr
    · rw [if_neg htb] at hr
      exact (surv_aux_mem tbl keys tiebreak (dupeKeySet tbl keys) r hr).1
  have hcount := (dupeRows_mem hrd).2
  simp only [beq_iff_eq]
  intro hcon
  rw [hcon] at hcount
  exact hdup hcount

lemma afterDelete_filter_dup (tbl : List (List Int)) (keys : List Nat)
    (κ : List Int) (hdup : 1 < countKey tbl keys κ) :
    ((tbl.filter (fun r => !((dupeKeySet tbl keys).contains (proj keys r)))).filter
      (fun r => proj keys r == κ)) = [] := by
  rw [List.filter_comm, List.filter_eq_nil_iff]
  intro r hr
  have hrκ : proj keys r = κ := by
    have := List.of_mem_filter hr
    simpa using this
  have hmem : proj keys r ∈ dupeKeySet tbl keys := by
    rw [hrκ]
    exact (dupeKeySet_spec tbl keys κ).mpr hdup
  simp [hmem]

/-- C3: after `deduplicate(table, keys, tiebreaking_columns)`, every key
value appears in at most one row; and when `tiebreaking_columns` is
non-empty, the surviving row of each previously-duplicated key is drawn from
the table's rows of that key and is maximal when the rows are ordered by the
tie-breaking columns descending, earlier columns dominating. -/
theorem dedup_correct (tbl : List (List Int)) (tempPath : String)
    (keys tiebreak : List Nat) (_hk : keys ≠ []) :
    (∀ κ : List Int,
      (((deduplicate tbl tempPath keys tiebreak).result).filter
        (fun r => proj keys r == κ)).length ≤ 1) ∧
    (tiebreak ≠ [] → ∀ κ : List Int, 1 < countKey tbl keys κ →
      ∃ s, ((deduplicate tbl tempPath keys tiebreak).result).filter
          (fun r => proj keys r == κ) = [s] ∧
        s ∈ tbl ∧ proj keys s = κ ∧
        ∀ r ∈ tbl, proj keys r = κ →
          lexGeB (proj tiebreak s) (proj tiebreak r) = true) := by
  have hres : (deduplicate tbl tempPath keys tiebreak).result =
      (tbl.filter (fun r => !((dupeKeySet tbl keys).contains (proj keys r)))) ++
      (if tiebreak.isEmpty then dropDupsByKey keys (dupeRows tbl keys)
        else survivorsTB tbl keys tiebreak) := rfl
  constructor
  · intro κ
    rw [hres, List.filter_append, List.length_append]
    by_cases hdup : 1 < countKey tbl keys κ
    · rw [afterDelete_filter_dup tbl keys κ hdup]
      simpa using staged_filter_le_one tbl keys tiebreak κ
    · rw [staged_filter_not_dup tbl keys tiebreak κ hdup]
      simp only [List.length_nil, Nat.add_zero]
      have h1 : ((tbl.filter
          (fun r => !((dupeKeySet tbl keys).contains (proj keys r)))).filter
          (fun r => proj keys r == κ)).length ≤
          (tbl.filter (fun r => proj keys r == κ)).length := by
        rw [List.filter_comm]
        exact List.length_filter_le _ _
      have h2 : countKey tbl keys κ ≤ 1 := Nat.not_lt.mp hdup
      exact le_trans h1 h2
  · intro htb κ hdup
    have htbe : tiebreak.isEmpty = false := by
      cases tiebreak with
      | nil => exact absurd rfl htb
      | cons a l => rfl
    rw [hres, List.filter_append, afterDelete_filter_dup tbl keys κ hdup,
      List.nil_append, htbe]
    simp only [Bool.false_eq_true, if_false]
    have hκd : κ ∈ dupeKeySet tbl keys := (dupeKeySet_spec tbl keys κ).mpr hdup
    have hnd : (dupeKeySet tbl keys).Nodup := by
      rw [dupeKeySet]
      exact List.nodup_dedup _
    rw [survivorsTB,
      surv_aux_filter tbl keys tiebreak (dupeKeySet tbl keys) hnd κ hκd,
      dupe_partition_eq tbl keys κ hdup]
    have hlen : 1 < ((tbl.filter (fun x => proj keys x == κ)).insertionSort
        (rowGe tiebreak)).length := by
      rw [(List.perm_insertionSort (rowGe tiebreak) _).length_eq]
      exact hdup
    obtain ⟨m, rest, hsort⟩ : ∃ m rest,
        (tbl.filter (fun x => proj keys x == κ)).insertionSort (rowGe tiebreak) =
          m :: rest := by
      cases hs : (tbl.filter (fun x => proj keys x == κ)).insertionSort
          (rowGe tiebreak) with
      | nil => rw [hs] at hlen; simp at hlen
      | cons m rest => exact ⟨m, rest, rfl⟩
    have hmp : m ∈ tbl.filter (fun x => proj keys x == κ) := by
      have : m ∈ (tbl.filter (fun x => proj keys x == κ)).insertionSort
          (rowGe tiebreak) := by
        rw [hsort]
        exact List.mem_cons_self m rest
      exact (List.perm_insertionSort (rowGe tiebreak) _).mem_iff.mp this
    have hmκ : proj keys m = κ := by
      have := List.of_mem_filter hmp
      simpa using this
    haveI : IsTotal (List Int) (rowGe tiebreak) := ⟨fun a b => lexGeB_total _ _⟩
    haveI : IsTrans (List Int) (rowGe tiebreak) :=
      ⟨fun a b c h1 h2 => lexGeB_trans _ _ _
        (by rw [proj_length, proj_length]) (by rw [proj_length, proj_length]) h1 h2⟩
    have hsorted : List.Sorted (rowGe tiebreak) (m :: rest) := by
      rw [← hsort]
      exact List.sorted_insertionSort (rowGe tiebreak) _
    refine ⟨m, by rw [hsort]; rfl, List.mem_of_mem_filter hmp, hmκ, ?_⟩
    intro r hr hrκ
    have hrp : r ∈ tbl.filter (fun x => proj keys x == κ) :=
      List.mem_filter.mpr ⟨hr, by simp [hrκ]⟩
    have hrs : r ∈ m :: rest := by
      rw [← hsort]
      exact (List.perm_insertionSort (rowGe tiebreak) _).symm.mem_iff.mp hrp
    rcases List.mem_cons.mp hrs with h | h
    · rw [h]
      exact lexGeB_refl _
    · exact List.rel_of_sorted_cons hsorted r h

/-- Witness for `dedup_correct` at Scenario C's concrete input. -/
theorem dedup_correct_witness :
    ([0] : List Nat) ≠ [] ∧
    ((∀ κ : List Int,
      (((deduplicate [[0, 1], [0, 2]] "tmp" [0] [1]).result).filter
        (fun r => proj [0] r == κ)).length ≤ 1) ∧
    (([1] : List Nat) ≠ [] → ∀ κ : List Int, 1 < countKey [[0, 1], [0, 2]] [0] κ →
      ∃ s, ((deduplicate [[0, 1], [0, 2]] "tmp" [0] [1]).result).filter
          (fun r => proj [0] r == κ) = [s] ∧
        s ∈ [[0, 1], [0, 2]] ∧ proj [0] s = κ ∧
        ∀ r ∈ [[0, 1], [0, 2]], proj [0] r = κ →
          lexGeB (proj [1] s) (proj [1] r) = true)) :=
  ⟨by decide, dedup_correct [[0, 1], [0, 2]] "tmp" [0] [1] (by decide)⟩

lemma applyLead_map_key : ∀ l : List SRow, (applyLead l).map (·.key) = l.map (·.key)
  | [] => rfl
  | [_] => rfl
  | r :: s :: rest => by
    have ih := applyLead_map_key (s :: rest)
    simp only [applyLead, List.map_cons] at ih ⊢
    rw [ih]

lemma applyLead_map_eff : ∀ l : List SRow, (applyLead l).map (·.eff) = l.map (·.eff)
  | [] => rfl
  | [_] => rfl
  | r :: s :: rest => by
    have ih := applyLead_map_eff (s :: rest)
    simp only [applyLead, List.map_cons] at ih ⊢
    rw [ih]

lemma applyLead_key_mem {l : List SRow} {x : SRow} (hx : x ∈ applyLead l) :
    x.key ∈ l.map (·.key) := by
  have : x.key ∈ (applyLead l).map (·.key) := List.mem_map_of_mem _ hx
  rwa [applyLead_map_key] at this

lemma applyLead_eff_mem {l : List SRow} {x : SRow} (hx : x ∈ applyLead l) :
    x.eff ∈ l.map (·.eff) := by
  have : x.eff ∈ (applyLead l).map (·.eff) := List.mem_map_of_mem _ hx
  rwa [applyLead_map_eff] at this

lemma chain_applyLead : ∀ l : List SRow,
    (applyLead l).Chain' (fun a b => a.endTs = some b.eff)
  | [] => List.chain'_nil
  | [r] => List.chain'_singleton _
  | r :: s :: rest => by
    have ih := chain_applyLead (s :: rest)
    have hhead : ∃ h t, applyLead (s :: rest) = h :: t ∧ h.eff = s.eff := by
      cases rest with
      | nil => exact ⟨{ s with endTs := none }, [], rfl, rfl⟩
      | cons u us => exact ⟨{ s with endTs := some u.eff }, _, rfl, rfl⟩
    obtain ⟨h, t, hat, heff⟩ := hhead
    show ({ r with endTs := some s.eff } :: applyLead (s :: rest)).Chain'
      (fun a b => a.endTs = some b.eff)
    rw [hat]
    rw [hat] at ih
    exact ih.cons (by simp [heff])

lemma openCount_append (a b : List SRow) :
    openCount (a ++ b) = openCount a + openCount b := by
  simp [openCount, List.filter_append]

lemma openCount_applyLead : ∀ l : List SRow, l ≠ [] → openCount (applyLead l) = 1
  | [], h => absurd rfl h
  | [r], _ => by simp [applyLead, openCount]
  | r :: s :: rest, _ => by
    have ih := openCount_applyLead (s :: rest) (List.cons_ne_nil s rest)
    show openCount ({ r with endTs := some s.eff } :: applyLead (s :: rest)) = 1
    simp only [openCount, List.filter_cons] at ih ⊢
    simpa using ih

lemma linkedB_iff_chain : ∀ l : List SRow,
    linkedB l = true ↔ l.Chain' (fun a b => a.endTs = some b.eff)
  | [] => by simp [linkedB]
  | [r] => by simp [linkedB]
  | r :: s :: rest => by
    have ih := linkedB_iff_chain (s :: rest)
    rw [linkedB, List.chain'_cons, Bool.and_eq_true, beq_iff_eq, ih]

lemma tilesB_iff (l : List SRow) :
    tilesB l = true ↔
      (l.Chain' (fun a b => a.endTs = some b.eff) ∧ openCount l = 1) := by
  rw [tilesB, Bool.and_eq_true, linkedB_iff_chain, Nat.beq_eq_true_eq]

lemma strictIncB_iff_chain : ∀ l : List SRow, strictIncB l = true ↔ l.Chain' effLt
  | [] => by simp [strictIncB]
  | [r] => by simp [strictIncB]
  | r :: s :: rest => by
    have ih := strictIncB_iff_chain (s :: rest)
    rw [strictIncB, List.chain'_cons, Bool.and_eq_true, decide_eq_true_eq, ih]
    exact Iff.rfl

lemma strictIncB_sorted {l : List SRow} (h : strictIncB l = true) :
    List.Sorted effLt l :=
  List.chain'_iff_pairwise.mp ((strictIncB_iff_chain l).mp h)

lemma mem_keysOf {l : List SRow} {k : Nat} : k ∈ keysOf l ↔ ∃ r ∈ l, r.key = k := by
  rw [keysOf, List.mem_dedup, List.mem_map]

lemma partitionOf_eq_nil {l : List SRow} {k : Nat} :
    partitionOf l k = [] ↔ k ∉ keysOf l := by
  rw [partitionOf, List.filter_eq_nil_iff, mem_keysOf]
  constructor
  · rintro h ⟨r, hr, hrk⟩
    exact h r hr (by simp [hrk])
  · intro h r hr hrk
    exact h ⟨r, hr, by simpa using hrk⟩

lemma sortByEff_eq_of_sorted {l m : List SRow} (hp : List.Perm l m)
    (hm : List.Sorted effLt m) : sortByEff l = m := by
  have h1 : List.Perm (sortByEff l) m := (List.perm_insertionSort effLe l).trans hp
  have h2 : List.Sorted effLe (sortByEff l) := List.sorted_insertionSort effLe l
  have hm' : m.Pairwise (fun a b : SRow => a.eff ≠ b.eff) :=
    hm.imp (fun h => Nat.ne_of_lt h)
  have hne : (sortByEff l).Pairwise (fun a b : SRow => a.eff ≠ b.eff) :=
    (h1.pairwise_iff (fun hab => Ne.symm hab)).mpr hm'
  have h3 : List.Sorted effLt (sortByEff l) :=
    (h2.and hne).imp (fun hab => Nat.lt_of_le_of_ne hab.1 hab.2)
  exact List.eq_of_perm_of_sorted h1 h3 hm

lemma find?_eq_some_of_unique {α : Type} {l : List α} {p : α → Bool} {a : α}
    (ha : a ∈ l) (hpa : p a = true) (huniq : ∀ b ∈ l, p b = true → b = a) :
    l.find? p = some a := by
  induction l with
  | nil => cases ha
  | cons x xs ih =>
    by_cases hx : p x = true
    · rw [List.find?_cons_of_pos _ hx]
      rw [huniq x (List.mem_cons_self x xs) hx]
    · rw [List.find?_cons_of_neg _ (by simp [hx])]
      rcases List.mem_cons.mp ha with h | h
      · rw [← h] at hx
        exact absurd hpa hx
      · exact ih h (fun b hb hpb => huniq b (List.mem_cons_of_mem _ hb) hpb)

lemma scd2Upd_key_eff (P : List SRow) (t : SRow) :
    (scd2Upd P t).key = t.key ∧ (scd2Upd P t).eff = t.eff := by
  unfold scd2Upd
  cases h : P.find? (fun s => matchKeyEff t s) with
  | none => exact ⟨rfl, rfl⟩
  | some s =>
    have := List.find?_some h
    rw [matchKeyEff, Bool.and_eq_true, beq_iff_eq, beq_iff_eq] at this
    exact this

lemma windowLead_partition_aux (l : List SRow) (k : Nat) :
    ∀ ks : List Nat, ks.Nodup →
      partitionOf (ks.foldr
        (fun k' acc => applyLead (sortByEff (partitionOf l k')) ++ acc) []) k =
      if k ∈ ks then applyLead (sortByEff (partitionOf l k)) else [] := by
  intro ks
  induction ks with
  | nil => intro _; simp [partitionOf]
  | cons k' ks ih =>
    intro hnd
    rcases List.nodup_cons.mp hnd with ⟨hk', hnd'⟩
    rw [List.foldr_cons, partitionOf, List.filter_append]
    have hblock : ∀ x ∈ applyLead (sortByEff (partitionOf l k')), x.key = k' := by
      intro x hx
      have h1 := applyLead_key_mem hx
      rw [sortByEff] at h1
      have h2 : x.key ∈ (partitionOf l k').map (·.key) := by
        have hperm := (List.perm_insertionSort effLe (partitionOf l k')).map (·.key)
        exact hperm.mem_iff.mp h1
      obtain ⟨r, hr, hrk⟩ := List.mem_map.mp h2
      have := List.of_mem_filter hr
      simp only [beq_iff_eq] at this
      rw [← hrk, this]
    by_cases hkk : k = k'
    · subst hkk
      have h1 : (applyLead (sortByEff (partitionOf l k))).filter
          (fun r => r.key == k) = applyLead (sortByEff (partitionOf l k)) :=
        List.filter_eq_self.mpr (fun a ha => by simp [hblock a ha])
      have h2 := ih hnd'
      rw [if_neg hk'] at h2
      rw [partitionOf] at h2
      rw [h1, h2, List.append_nil, if_pos (List.mem_cons_self k ks)]
    · have h1 : (applyLead (sortByEff (partitionOf l k'))).filter
          (fun r => r.key == k) = [] := by
        rw [List.filter_eq_nil_iff]
        intro a ha
        simp only [hblock a ha, beq_iff_eq]
        exact Ne.symm hkk
      have h2 := ih hnd'
      rw [partitionOf] at h2
      rw [h1, List.nil_append, h2]
      by_cases hmem : k ∈ ks
      · rw [if_pos hmem, if_pos (List.mem_cons_of_mem _ hmem)]
      · rw [if_neg hmem, if_neg (by
          intro hc
          rcases List.mem_cons.mp hc with h | h
          · exact hkk h
          · exact hmem h)]

lemma windowLead_partition (l : List SRow) (k : Nat) :
    partitionOf (windowLead l) k =
      if k ∈ keysOf l then applyLead (sortByEff (partitionOf l k)) else [] := by
  have hnd : (keysOf l).Nodup := by
    rw [keysOf]
    exact List.nodup_dedup _
  rw [windowLead]
  exact windowLead_partition_aux l k (keysOf l) hnd

lemma map_upd_partition (P : List SRow) (tbl : List SRow) (k : Nat) :
    partitionOf (tbl.map (scd2Upd P)) k = (partitionOf tbl k).map (scd2Upd P) := by
  rw [partitionOf, partitionOf, List.filter_map]
  congr 1
  apply List.filter_congr
  intro t _
  show ((scd2Upd P t).key == k) = (t.key == k)
  rw [(scd2Upd_key_eff P t).1]

lemma updatedRows_partition_aff {tbl : List SRow} {src : List InRow} {k : Nat}
    (haff : ∃ s ∈ src, s.key = k) :
    partitionOf (updatedRows tbl src) k =
      (partitionOf tbl k).filter (fun r => r.endTs == none) := by
  rw [updatedRows, partitionOf, partitionOf]
  rw [List.filter_comm (fun r : SRow => r.key == k) (fun t : SRow => t.endTs == none)
    (tbl.filter (fun t => src.any fun s => s.key == t.key))]
  rw [List.filter_comm (fun r : SRow => r.key == k)
    (fun t : SRow => src.any fun s => s.key == t.key) tbl]
  congr 1
  apply List.filter_eq_self.mpr
  intro r hr
  have hrk : r.key = k := by
    have := List.of_mem_filter hr
    simpa using this
  obtain ⟨s, hs, hsk⟩ := haff
  refine List.any_eq_true.mpr ⟨s, hs, ?_⟩
  simp [hsk, hrk]

lemma updatedRows_partition_unaff {tbl : List SRow} {src : List InRow} {k : Nat}
    (hna : ¬∃ s ∈ src, s.key = k) :
    partitionOf (updatedRows tbl src) k = [] := by
  rw [partitionOf, List.filter_eq_nil_iff]
  intro r hr
  rw [updatedRows] at hr
  have h1 := List.of_mem_filter (List.mem_of_mem_filter hr)
  obtain ⟨s, hs, hsk⟩ := List.any_eq_true.mp h1
  simp only [beq_iff_eq] at hsk ⊢
  intro hrk
  exact hna ⟨s, hs, by rw [hsk, hrk]⟩

lemma src_partition (src : List InRow) (k : Nat) :
    partitionOf (src.map InRow.toSRow) k =
      (src.filter (fun s => s.key == k)).map InRow.toSRow := by
  rw [partitionOf, List.filter_map]
  rfl

lemma tiles_structure : ∀ l : List SRow,
    l.Chain' (fun a b => a.endTs = some b.eff) → openCount l = 1 →
    ∃ A o, l = A ++ [o] ∧ o.endTs = none ∧ ∀ a ∈ A, a.endTs ≠ none := by
  intro l
  induction l with
  | nil => intro _ h; simp [openCount] at h
  | cons r rest ih =>
    intro hchain hopen
    cases rest with
    | nil =>
      have hr : r.endTs = none := by
        by_cases h : r.endTs = none
        · exact h
        · exfalso
          simp [openCount, List.filter_cons, h] at hopen
      exact ⟨[], r, rfl, hr, by simp⟩
    | cons s rest' =>
      have hr : r.endTs = some s.eff := (List.chain'_cons.mp hchain).1
      have hrn : r.endTs ≠ none := by rw [hr]; simp
      have hopen' : openCount (s :: rest') = 1 := by
        simpa [openCount, List.filter_cons, hrn] using hopen
      obtain ⟨A, o, hsplit, ho, hA⟩ :=
        ih (List.chain'_cons.mp hchain).2 hopen'
      refine ⟨r :: A, o, by rw [List.cons_append, hsplit], ho, ?_⟩
      intro a ha
      rcases List.mem_cons.mp ha with h | h
      · rw [h]; exact hrn
      · exact hA a h

lemma partitionOf_key {l : List SRow} {k : Nat} {x : SRow}
    (hx : x ∈ partitionOf l k) : x.key = k := by
  have := List.of_mem_filter hx
  simpa using this

lemma partition_append (X Y : List SRow) (k : Nat) :
    partitionOf (X ++ Y) k = partitionOf X k ++ partitionOf Y k := by
  rw [partitionOf, partitionOf, partitionOf, List.filter_append]

lemma partition_filter_comm (P : List SRow) (g : SRow → Bool) (k : Nat) :
    partitionOf (P.filter g) k = (partitionOf P k).filter g := by
  rw [partitionOf, partitionOf, List.filter_comm]

lemma sorted_strict_sortByEff {l : List SRow}
    (hne : l.Pairwise (fun a b => a.eff ≠ b.eff)) :
    List.Sorted effLt (sortByEff l) := by
  have h2 : List.Sorted effLe (sortByEff l) := List.sorted_insertionSort effLe l
  have hne' : (sortByEff l).Pairwise (fun a b : SRow => a.eff ≠ b.eff) :=
    ((List.perm_insertionSort effLe l).pairwise_iff (fun hab => Ne.symm hab)).mpr hne
  exact (h2.and hne').imp (fun hab => Nat.lt_of_le_of_ne hab.1 hab.2)

lemma sorted_effLt_applyLead : ∀ {l : List SRow},
    List.Sorted effLt l → List.Sorted effLt (applyLead l)
  | [], _ => List.sorted_nil
  | [_], _ => List.sorted_singleton _
  | r :: s :: rest, h => by
    have hh := List.pairwise_cons.mp h
    have ih := sorted_effLt_applyLead hh.2
    show List.Sorted effLt ({ r with endTs := some s.eff } :: applyLead (s :: rest))
    refine List.pairwise_cons.mpr ⟨?_, ih⟩
    intro y hy
    have hy' := applyLead_eff_mem hy
    obtain ⟨b, hb, hbe⟩ := List.mem_map.mp hy'
    show r.eff < y.eff
    rw [← hbe]
    exact hh.1 b hb

lemma ns_pairwise_ne (src : List InRow) (k : Nat) (hdist : srcDistinct src) :
    ((src.filter (fun s => s.key == k)).map InRow.toSRow).Pairwise
      (fun a b => a.eff ≠ b.eff) := by
  have h1 : (src.filter (fun s => s.key == k)).Pairwise
      (fun a b => ¬(a.key = b.key ∧ a.eff = b.eff)) :=
    hdist.sublist (List.filter_sublist src)
  rw [List.pairwise_map]
  refine h1.imp_of_mem ?_
  intro a b ha hb hr
  have hak : a.key = k := by
    have := List.of_mem_filter ha
    simpa using this
  have hbk : b.key = k := by
    have := List.of_mem_filter hb
    simpa using this
  show a.eff ≠ b.eff
  intro hcon
  exact hr ⟨by rw [hak, hbk], hcon⟩

lemma scd2_merge_aff_old (tbl : List SRow) (src : List InRow) (k : Nat)
    (A : List SRow) (o : SRow)
    (hTP : sortByEff (partitionOf tbl k) = A ++ [o])
    (hoNone : o.endTs = none)
    (hANone : ∀ a ∈ A, a.endTs ≠ none)
    (hchainTP : (A ++ [o]).Chain' (fun a b => a.endTs = some b.eff))
    (hsortTP : List.Sorted effLt (A ++ [o]))
    (hlate : srcLate tbl src) (hdist : srcDistinct src)
    (haff : ∃ s ∈ src, s.key = k) :
    tilesB (sortByEff (partitionOf (scd2Table tbl src) k)) = true := by
  have hperm : List.Perm (partitionOf tbl k) (A ++ [o]) := by
    rw [← hTP]
    exact (List.perm_insertionSort effLe _).symm
  have hoPart : o ∈ partitionOf tbl k := hperm.symm.subset (by simp)
  have hoK : o.key = k := partitionOf_key hoPart
  have hoT : o ∈ tbl := List.mem_of_mem_filter hoPart
  have hAmem : ∀ a ∈ A, a ∈ partitionOf tbl k := fun a ha =>
    hperm.symm.subset (List.mem_append_left _ ha)
  have hAK : ∀ a ∈ A, a.key = k := fun a ha => partitionOf_key (hAmem a ha)
  have hAT : ∀ a ∈ A, a ∈ tbl := fun a ha => List.mem_of_mem_filter (hAmem a ha)
  have hNSkey : ∀ x ∈ (src.filter (fun s => s.key == k)).map InRow.toSRow,
      x.key = k := by
    intro x hx
    obtain ⟨s, hs, rfl⟩ := List.mem_map.mp hx
    have := List.of_mem_filter hs
    simpa [InRow.toSRow] using this
  have hNSlate : ∀ x ∈ (src.filter (fun s => s.key == k)).map InRow.toSRow,
      ∀ t ∈ tbl, t.key = k → t.eff < x.eff := by
    intro x hx t ht htk
    obtain ⟨s, hs, rfl⟩ := List.mem_map.mp hx
    have hsk : s.key = k := by
      have := List.of_mem_filter hs
      simpa using this
    exact hlate s (List.mem_of_mem_filter hs) t ht (by rw [htk, hsk])
  have hNSoeff : ∀ x ∈ (src.filter (fun s => s.key == k)).map InRow.toSRow,
      o.eff < x.eff := fun x hx => hNSlate x hx o hoT hoK
  have hAoeff : ∀ a ∈ A, a.eff < o.eff := by
    intro a ha
    exact (List.pairwise_append.mp hsortTP).2.2 a ha o (by simp)
  have hopenTP : (partitionOf tbl k).filter (fun r => r.endTs == none) = [o] := by
    have h1 : List.Perm ((partitionOf tbl k).filter (fun r => r.endTs == none))
        ((A ++ [o]).filter (fun r => r.endTs == none)) := hperm.filter _
    have h2 : (A ++ [o]).filter (fun r => r.endTs == none) = [o] := by
      rw [List.filter_append]
      have h3 : A.filter (fun r => r.endTs == none) = [] := by
        rw [List.filter_eq_nil_iff]
        intro a ha
        simp [hANone a ha]
      have h4 : [o].filter (fun r => r.endTs == none) = [o] := by
        simp [List.filter, hoNone]
      rw [h3, h4, List.nil_append]
    rw [h2] at h1
    exact List.perm_singleton.mp h1
  have hcomb : partitionOf (updatedRows tbl src ++ src.map InRow.toSRow) k =
      o :: (src.filter (fun s => s.key == k)).map InRow.toSRow := by
    rw [partition_append, updatedRows_partition_aff haff, hopenTP, src_partition]
    rfl
  have hkComb : k ∈ keysOf (updatedRows tbl src ++ src.map InRow.toSRow) := by
    refine mem_keysOf.mpr ⟨o, ?_, hoK⟩
    have : o ∈ partitionOf (updatedRows tbl src ++ src.map InRow.toSRow) k := by
      rw [hcomb]
      exact List.mem_cons_self _ _
    exact List.mem_of_mem_filter this
  have hNSsSorted : List.Sorted effLt
      (sortByEff ((src.filter (fun s => s.key == k)).map InRow.toSRow)) :=
    sorted_strict_sortByEff (ns_pairwise_ne src k hdist)
  have hNSsPerm : List.Perm ((src.filter (fun s => s.key == k)).map InRow.toSRow)
      (sortByEff ((src.filter (fun s => s.key == k)).map InRow.toSRow)) :=
    (List.perm_insertionSort effLe _).symm
  have hsortComb : sortByEff
      (o :: (src.filter (fun s => s.key == k)).map InRow.toSRow) =
      o :: sortByEff ((src.filter (fun s => s.key == k)).map InRow.toSRow) := by
    apply sortByEff_eq_of_sorted
    · exact List.Perm.cons o hNSsPerm
    · refine List.pairwise_cons.mpr ⟨?_, hNSsSorted⟩
      intro y hy
      exact hNSoeff y (hNSsPerm.symm.subset hy)
  obtain ⟨s1, ns, hNSs⟩ : ∃ s1 ns,
      sortByEff ((src.filter (fun s => s.key == k)).map InRow.toSRow) =
        s1 :: ns := by
    cases hsn : sortByEff ((src.filter (fun s => s.key == k)).map InRow.toSRow) with
    | nil =>
      exfalso
      obtain ⟨s0, hs0, hs0k⟩ := haff
      have hmem : InRow.toSRow s0 ∈
          (src.filter (fun s => s.key == k)).map InRow.toSRow :=
        List.mem_map_of_mem _ (List.mem_filter.mpr ⟨hs0, by simp [hs0k]⟩)
      have := hNSsPerm.subset hmem
      rw [hsn] at this
      cases this
    | cons s1 ns => exact ⟨s1, ns, rfl⟩
  have hPP : partitionOf (scd2Payload tbl src) k =
      { o with endTs := some s1.eff } :: applyLead (s1 :: ns) := by
    rw [scd2Payload, windowLead_partition, if_pos hkComb, hcomb, hsortComb, hNSs]
    rfl
  have htailEff : ∀ x ∈ applyLead (s1 :: ns),
      o.eff < x.eff ∧ ∀ t ∈ tbl, t.key = k → t.eff < x.eff := by
    intro x hx
    have h1 := applyLead_eff_mem hx
    rw [← hNSs] at h1
    have h2 : x.eff ∈
        ((src.filter (fun s => s.key == k)).map InRow.toSRow).map (·.eff) :=
      (hNSsPerm.map (·.eff)).mem_iff.mpr h1
    obtain ⟨b, hb, hbe⟩ := List.mem_map.mp h2
    constructor
    · rw [← hbe]
      exact hNSoeff b hb
    · intro t ht htk
      rw [← hbe]
      exact hNSlate b hb t ht htk
  have htailKey : ∀ x ∈ applyLead (s1 :: ns), x.key = k := by
    intro x hx
    have h1 := applyLead_key_mem hx
    rw [← hNSs] at h1
    have h2 : x.key ∈
        ((src.filter (fun s => s.key == k)).map InRow.toSRow).map (·.key) :=
      (hNSsPerm.map (·.key)).mem_iff.mpr h1
    obtain ⟨b, hb, hbe⟩ := List.mem_map.mp h2
    rw [← hbe]
    exact hNSkey b hb
  have hupdA : ∀ t ∈ A, scd2Upd (scd2Payload tbl src) t = t := by
    intro t ht
    have hfind : (scd2Payload tbl src).find? (fun s => matchKeyEff t s) = none := by
      rw [List.find?_eq_none]
      intro s hs hms
      rw [matchKeyEff, Bool.and_eq_true, beq_iff_eq, beq_iff_eq] at hms
      have hsk : s.key = k := by rw [hms.1, hAK t ht]
      have hsPP : s ∈ partitionOf (scd2Payload tbl src) k :=
        List.mem_filter.mpr ⟨hs, by simp [hsk]⟩
      rw [hPP] at hsPP
      rcases List.mem_cons.mp hsPP with h | h
      · have he : s.eff = o.eff := by rw [h]
        have ht2 : t.eff < o.eff := hAoeff t ht
        rw [hms.2] at he
        omega
      · have := (htailEff s h).2 t (hAT t ht) (hAK t ht)
        rw [hms.2] at this
        omega
    simp [scd2Upd, hfind]
  have hupdO : scd2Upd (scd2Payload tbl src) o = { o with endTs := some s1.eff } := by
    have hfind : (scd2Payload tbl src).find? (fun s => matchKeyEff o s) =
        some { o with endTs := some s1.eff } := by
      apply find?_eq_some_of_unique
      · have hmem : ({ o with endTs := some s1.eff } : SRow) ∈
            partitionOf (scd2Payload tbl src) k := by
          rw [hPP]
          exact List.mem_cons_self _ _
        exact List.mem_of_mem_filter hmem
      · simp [matchKeyEff]
      · intro b hb hmb
        rw [matchKeyEff, Bool.and_eq_true, beq_iff_eq, beq_iff_eq] at hmb
        have hbk : b.key = k := by rw [hmb.1, hoK]
        have hbPP : b ∈ partitionOf (scd2Payload tbl src) k :=
          List.mem_filter.mpr ⟨hb, by simp [hbk]⟩
        rw [hPP] at hbPP
        rcases List.mem_cons.mp hbPP with h | h
        · exact h
        · exfalso
          have := (htailEff b h).1
          rw [hmb.2] at this
          omega
    simp [scd2Upd, hfind]
  have hmapEq : (A ++ [o]).map (scd2Upd (scd2Payload tbl src)) =
      A ++ [{ o with endTs := some s1.eff }] := by
    rw [List.map_append]
    congr 1
    · exact (List.map_congr_left hupdA).trans (List.map_id A)
    · simp [hupdO]
  have hmapPerm : List.Perm
      ((partitionOf tbl k).map (scd2Upd (scd2Payload tbl src)))
      (A ++ [{ o with endTs := some s1.eff }]) := by
    have h1 := hperm.map (scd2Upd (scd2Payload tbl src))
    rw [hmapEq] at h1
    exact h1
  have hfilterPP : (partitionOf (scd2Payload tbl src) k).filter
      (fun s => !(tbl.any (fun t => matchKeyEff t s))) = applyLead (s1 :: ns) := by
    rw [hPP]
    have hstep1 : (({ o with endTs := some s1.eff } : SRow) ::
        applyLead (s1 :: ns)).filter
        (fun s => !(tbl.any (fun t => matchKeyEff t s))) =
        (applyLead (s1 :: ns)).filter
          (fun s => !(tbl.any (fun t => matchKeyEff t s))) := by
      apply List.filter_cons_of_neg
      have hmatched : tbl.any
          (fun t => matchKeyEff t { o with endTs := some s1.eff }) = true :=
        List.any_eq_true.mpr ⟨o, hoT, by simp [matchKeyEff]⟩
      simp [hmatched]
    have hstep2 : (applyLead (s1 :: ns)).filter
        (fun s => !(tbl.any (fun t => matchKeyEff t s))) =
        applyLead (s1 :: ns) := by
      apply List.filter_eq_self.mpr
      intro x hx
      rw [Bool.not_eq_true', List.any_eq_false]
      intro t ht hmt
      rw [matchKeyEff, Bool.and_eq_true, beq_iff_eq, beq_iff_eq] at hmt
      have htk : t.key = k := by rw [← hmt.1, htailKey x hx]
      have := (htailEff x hx).2 t ht htk
      rw [hmt.2] at this
      omega
    rw [hstep1, hstep2]
  have hresPart : partitionOf (scd2Table tbl src) k =
      (partitionOf tbl k).map (scd2Upd (scd2Payload tbl src)) ++
        applyLead (s1 :: ns) := by
    rw [scd2Table, mergeUpsert, partition_append, map_upd_partition,
      partition_filter_comm, hfilterPP]
  have hresPerm : List.Perm (partitionOf (scd2Table tbl src) k)
      (A ++ ({ o with endTs := some s1.eff } :: applyLead (s1 :: ns))) := by
    rw [hresPart]
    have h1 := hmapPerm.append_right (applyLead (s1 :: ns))
    have h2 : (A ++ [{ o with endTs := some s1.eff }]) ++ applyLead (s1 :: ns) =
        A ++ ({ o with endTs := some s1.eff } :: applyLead (s1 :: ns)) := by
      rw [List.append_assoc]
      rfl
    rw [h2] at h1
    exact h1
  have hsortM : List.Sorted effLt
      (A ++ ({ o with endTs := some s1.eff } :: applyLead (s1 :: ns))) := by
    have hTPsplit := List.pairwise_append.mp hsortTP
    refine List.pairwise_append.mpr ⟨hTPsplit.1, ?_, ?_⟩
    · refine List.pairwise_cons.mpr ⟨?_, ?_⟩
      · intro y hy
        show o.eff < y.eff
        exact (htailEff y hy).1
      · have hs' : List.Sorted effLt (s1 :: ns) := hNSs ▸ hNSsSorted
        exact sorted_effLt_applyLead hs'
    · intro a ha y hy
      rcases List.mem_cons.mp hy with h | h
      · rw [h]
        show a.eff < o.eff
        exact hAoeff a ha
      · show a.eff < y.eff
        exact lt_trans (hAoeff a ha) (htailEff y h).1
  have hsortRes : sortByEff (partitionOf (scd2Table tbl src) k) =
      A ++ ({ o with endTs := some s1.eff } :: applyLead (s1 :: ns)) :=
    sortByEff_eq_of_sorted hresPerm hsortM
  rw [hsortRes, tilesB_iff]
  constructor
  · have hchainSplit := List.chain'_append.mp hchainTP
    refine List.chain'_append.mpr ⟨hchainSplit.1, ?_, ?_⟩
    · exact chain_applyLead (o :: s1 :: ns)
    · intro x hx y hy
      have hxo : x.endTs = some o.eff := hchainSplit.2.2 x hx o (by simp)
      have hy' : y = { o with endTs := some s1.eff } := Eq.symm (by simpa using hy)
      rw [hy', hxo]
  · rw [openCount_append]
    have h1 : openCount A = 0 := by
      rw [openCount, List.filter_eq_nil_iff.mpr (fun a ha => by simp [hANone a ha])]
      rfl
    have h2 : openCount
        ({ o with endTs := some s1.eff } :: applyLead (s1 :: ns)) = 1 :=
      openCount_applyLead (o :: s1 :: ns) (List.cons_ne_nil _ _)
    rw [h1, h2]

lemma scd2_merge_aff_new (tbl : List SRow) (src : List InRow) (k : Nat)
    (hnew : partitionOf tbl k = [])
    (hdist : srcDistinct src)
    (haff : ∃ s ∈ src, s.key = k) :
    tilesB (sortByEff (partitionOf (scd2Table tbl src) k)) = true := by
  have hup : partitionOf (updatedRows tbl src) k = [] := by
    rw [updatedRows_partition_aff haff, hnew]
    rfl
  have hcomb : partitionOf (updatedRows tbl src ++ src.map InRow.toSRow) k =
      (src.filter (fun s => s.key == k)).map InRow.toSRow := by
    rw [partition_append, hup, src_partition, List.nil_append]
  obtain ⟨s0, hs0, hs0k⟩ := haff
  have hkComb : k ∈ keysOf (updatedRows tbl src ++ src.map InRow.toSRow) :=
    mem_keysOf.mpr ⟨InRow.toSRow s0,
      List.mem_append_right _ (List.mem_map_of_mem _ hs0), hs0k⟩
  have hNSsSorted : List.Sorted effLt
      (sortByEff ((src.filter (fun s => s.key == k)).map InRow.toSRow)) :=
    sorted_strict_sortByEff (ns_pairwise_ne src k hdist)
  have hNSsPerm : List.Perm ((src.filter (fun s => s.key == k)).map InRow.toSRow)
      (sortByEff ((src.filter (fun s => s.key == k)).map InRow.toSRow)) :=
    (List.perm_insertionSort effLe _).symm
  obtain ⟨s1, ns, hNSs⟩ : ∃ s1 ns,
      sortByEff ((src.filter (fun s => s.key == k)).map InRow.toSRow) =
        s1 :: ns := by
    cases hsn : sortByEff ((src.filter (fun s => s.key == k)).map InRow.toSRow) with
    | nil =>
      exfalso
      have hmem : InRow.toSRow s0 ∈
          (src.filter (fun s => s.key == k)).map InRow.toSRow :=
        List.mem_map_of_mem _ (List.mem_filter.mpr ⟨hs0, by simp [hs0k]⟩)
      have := hNSsPerm.subset hmem
      rw [hsn] at this
      cases this
    | cons s1 ns => exact ⟨s1, ns, rfl⟩
  have hPP : partitionOf (scd2Payload tbl src) k = applyLead (s1 :: ns) := by
    rw [scd2Payload, windowLead_partition, if_pos hkComb, hcomb, hNSs]
  have htailKey : ∀ x ∈ applyLead (s1 :: ns), x.key = k := by
    intro x hx
    have h1 := applyLead_key_mem hx
    rw [← hNSs] at h1
    have h2 : x.key ∈
        ((src.filter (fun s => s.key == k)).map InRow.toSRow).map (·.key) :=
      (hNSsPerm.map (·.key)).mem_iff.mpr h1
    obtain ⟨b, hb, hbe⟩ := List.mem_map.mp h2
    obtain ⟨s, hs, rfl⟩ := List.mem_map.mp hb
    have hsk : s.key = k := by
      have := List.of_mem_filter hs
      simpa using this
    rw [← hbe]
    exact hsk
  have hfilterPP : (partitionOf (scd2Payload tbl src) k).filter
      (fun s => !(tbl.any (fun t => matchKeyEff t s))) = applyLead (s1 :: ns) := by
    rw [hPP]
    apply List.filter_eq_self.mpr
    intro x hx
    rw [Bool.not_eq_true', List.any_eq_false]
    intro t ht hmt
    rw [matchKeyEff, Bool.and_eq_true, beq_iff_eq, beq_iff_eq] at hmt
    have htk : t.key = k := by rw [← hmt.1, htailKey x hx]
    have : t ∈ partitionOf tbl k := List.mem_filter.mpr ⟨ht, by simp [htk]⟩
    rw [hnew] at this
    cases this
  have hresPart : partitionOf (scd2Table tbl src) k = applyLead (s1 :: ns) := by
    rw [scd2Table, mergeUpsert, partition_append, map_upd_partition,
      partition_filter_comm, hfilterPP, hnew]
    rfl
  have hsorted : List.Sorted effLt (applyLead (s1 :: ns)) :=
    sorted_effLt_applyLead (hNSs ▸ hNSsSorted)
  have hsortRes : sortByEff (applyLead (s1 :: ns)) = applyLead (s1 :: ns) :=
    sortByEff_eq_of_sorted (List.Perm.refl _) hsorted
  rw [hresPart, hsortRes, tilesB_iff]
  exact ⟨chain_applyLead _, openCount_applyLead _ (List.cons_ne_nil _ _)⟩

lemma scd2_merge_unaff (tbl : List SRow) (src : List InRow) (k : Nat)
    (hna : ¬∃ s ∈ src, s.key = k) :
    partitionOf (scd2Table tbl src) k = partitionOf tbl k := by
  have hup : partitionOf (updatedRows tbl src) k = [] :=
    updatedRows_partition_unaff hna
  have hsrcp : partitionOf (src.map InRow.toSRow) k = [] := by
    rw [src_partition]
    have h1 : src.filter (fun s => s.key == k) = [] := by
      rw [List.filter_eq_nil_iff]
      intro s hs
      simp only [beq_iff_eq]
      intro hcon
      exact hna ⟨s, hs, hcon⟩
    rw [h1]
    rfl
  have hcomb : partitionOf (updatedRows tbl src ++ src.map InRow.toSRow) k = [] := by
    rw [partition_append, hup, hsrcp]
    rfl
  have hPP : partitionOf (scd2Payload tbl src) k = [] := by
    rw [scd2Payload, windowLead_partition]
    by_cases h : k ∈ keysOf (updatedRows tbl src ++ src.map InRow.toSRow)
    · rw [if_pos h, hcomb]
      rfl
    · rw [if_neg h]
  have hupd : ∀ t ∈ partitionOf tbl k, scd2Upd (scd2Payload tbl src) t = t := by
    intro t ht
    have htk := partitionOf_key ht
    have hfind : (scd2Payload tbl src).find? (fun s => matchKeyEff t s) = none := by
      rw [List.find?_eq_none]
      intro s hs hms
      rw [matchKeyEff, Bool.and_eq_true, beq_iff_eq, beq_iff_eq] at hms
      have hsk : s.key = k := by rw [hms.1, htk]
      have : s ∈ partitionOf (scd2Payload tbl src) k :=
        List.mem_filter.mpr ⟨hs, by simp [hsk]⟩
      rw [hPP] at this
      cases this
    simp [scd2Upd, hfind]
  have hfilterPP : (partitionOf (scd2Payload tbl src) k).filter
      (fun s => !(tbl.any (fun t => matchKeyEff t s))) = [] := by
    rw [hPP]
    rfl
  rw [scd2Table, mergeUpsert, partition_append, map_upd_partition,
    partition_filter_comm, hfilterPP, List.append_nil]
  exact (List.map_congr_left hupd).trans (List.map_id _)

/-- C1, counterexample to the claim as stated: a well-formed SCD2 table (two
closed intervals and one open row for key 1) merged with an incoming row
whose `effective_ts` falls strictly between the two already-closed intervals
violates Invariant I1 — the closed history is never recomputed, only the
open row and the incoming batch are re-linked, leaving an overlap. -/
theorem scd2_midinsert_breaks_I1 :
    I1 [⟨1, 1, some 2, 0⟩, ⟨1, 2, some 4, 0⟩, ⟨1, 4, none, 0⟩] ∧
    scd2Inv [⟨1, 1, some 2, 0⟩, ⟨1, 2, some 4, 0⟩, ⟨1, 4, none, 0⟩] ∧
    ¬ I1 (scd2Table [⟨1, 1, some 2, 0⟩, ⟨1, 2, some 4, 0⟩, ⟨1, 4, none, 0⟩]
      [⟨1, 3, 0⟩]) := by
  decide

/-- C1, amended: when every incoming row is strictly later than all existing
records of its key and the batch carries no duplicate `(key, effective_ts)`,
a type-2 merge of a well-formed SCD2 table (per key: tiling intervals with
pairwise-distinct `effective_ts`) yields a table satisfying Invariant I1:
per key the intervals tile without gaps or overlaps and exactly one record
is open. -/
theorem scd2_preserves_I1 (tbl : List SRow) (src : List InRow)
    (hinv : scd2Inv tbl) (hlate : srcLate tbl src) (hdist : srcDistinct src) :
    I1 (scd2Table tbl src) := by
  intro k hk
  by_cases haff : ∃ s ∈ src, s.key = k
  · by_cases hktbl : k ∈ keysOf tbl
    · obtain ⟨htiles, hstrict⟩ := hinv k hktbl
      rw [tilesB_iff] at htiles
      obtain ⟨A, o, hTP0, hoNone, hANone⟩ := tiles_structure _ htiles.1 htiles.2
      exact scd2_merge_aff_old tbl src k A o hTP0 hoNone hANone
        (hTP0 ▸ htiles.1) (hTP0 ▸ strictIncB_sorted hstrict) hlate hdist haff
    · exact scd2_merge_aff_new tbl src k (partitionOf_eq_nil.mpr hktbl)
        hdist haff
  · rw [scd2_merge_unaff tbl src k haff]
    have hktbl : k ∈ keysOf tbl := by
      obtain ⟨r, hr, hrk⟩ := mem_keysOf.mp hk
      have hrp : r ∈ partitionOf (scd2Table tbl src) k :=
        List.mem_filter.mpr ⟨hr, by simp [hrk]⟩
      rw [scd2_merge_unaff tbl src k haff] at hrp
      exact mem_keysOf.mpr ⟨r, List.mem_of_mem_filter hrp, hrk⟩
    exact (hinv k hktbl).1

/-- Witness for `scd2_preserves_I1` at a concrete table and batch. -/
theorem scd2_preserves_I1_witness :
    scd2Inv [⟨1, 1, some 3, 0⟩, ⟨1, 3, none, 0⟩] ∧
    srcLate [⟨1, 1, some 3, 0⟩, ⟨1, 3, none, 0⟩] [⟨1, 5, 0⟩, ⟨2, 4, 7⟩] ∧
    srcDistinct [⟨1, 5, 0⟩, ⟨2, 4, 7⟩] ∧
    I1 (scd2Table [⟨1, 1, some 3, 0⟩, ⟨1, 3, none, 0⟩] [⟨1, 5, 0⟩, ⟨2, 4, 7⟩]) :=
  ⟨by decide, by decide, by decide,
    scd2_preserves_I1 [⟨1, 1, some 3, 0⟩, ⟨1, 3, none, 0⟩] [⟨1, 5, 0⟩, ⟨2, 4, 7⟩]
      (by decide) (by decide) (by decide)⟩
